import Mathlib

/-!
# The obfuscation parameter calculator (`src/parameter-calculator.js`)

A shallow embedding of the computational methods of the `ParameterCalculator` class:
the per-level lookup tables, the derived counts, the complexity and security scores, the
performance projection, the advisory rules, the bounded search for a configuration and the
command-line export.

## Numbers

ECMAScript numbers are IEEE-754 binary64 values.  A finite number is modelled by the rational
it denotes, and every arithmetic operation is the exact rational operation followed by
`rnd`, rounding to the nearest value with a 53-bit significand, ties to the even significand.

The methods are given twice.  The first sections compute with finite numbers only, and `rnd`
has no bound on the exponent there: they are the program as long as no intermediate
magnitude reaches `2^1024` and the level is one of the four of the tables.  The section
*Numbers with their full range* repeats the counts and the performance projection over
every value a Number can take: a result of magnitude `2^1024` or more is an infinity, and a
level that names a member every object inherits (`constructor`, `toString`, ...) finds that
member in a table and yields `NaN`.  `-0` is identified with `0`, and magnitudes below
`2^-1022` do not occur.

The integer fields of a configuration stand for the Numbers nearest to them, as numeric
literals do.  A string made by `toFixed(1)` is kept as the integer its digits spell, and a
number is printed as `String` prints it: the shortest decimal that denotes it, in full up
to 21 digits and with an exponent beyond.
-/

namespace ParameterCalculator

/-! ## Binary64 rounding -/

/-- Round a rational to the nearest integer, a tie going to the even neighbour. -/
def roundHalfEven (x : ℚ) : ℤ :=
  let f := ⌊x⌋
  let r := x - f
  if r < 1 / 2 then f else if 1 / 2 < r then f + 1 else if f % 2 = 0 then f else f + 1

/-- The position of the leading bit of `n`, found by halving at most `fuel` times. -/
def log2Aux : ℕ → ℕ → ℕ
  | 0, _ => 0
  | fuel + 1, n => if 2 ≤ n then log2Aux fuel (n / 2) + 1 else 0

/-- The position of the leading bit of a positive natural number: `2^k ≤ n < 2^(k+1)`. -/
def ilog2 (n : ℕ) : ℕ := log2Aux n n

/-- The exponent `e` with `2^e ≤ p / q < 2^(e+1)`, for positive `p` and `q`. -/
def binadeNat (p q : ℕ) : ℤ :=
  if q ≤ p then (ilog2 (p / q) : ℤ) else Int.negSucc (ilog2 ((q - 1) / p))

/-- The power `2^e` as a rational, for an integer exponent. -/
def pow2 (e : ℤ) : ℚ :=
  if 0 ≤ e then ((2 ^ e.toNat : ℕ) : ℚ) else 1 / ((2 ^ (-e).toNat : ℕ) : ℚ)

/-- The exponent of the leading bit of a non-zero rational. -/
def binade (x : ℚ) : ℤ := binadeNat x.num.natAbs x.den

/-- Rounding to binary64 precision: the nearest multiple of `2^(e-52)`, where `e` is the
exponent of the leading bit of `x`, ties to even. -/
def rnd (x : ℚ) : ℚ :=
  if x = 0 then 0 else
    (roundHalfEven (x / pow2 (binade x - 52)) : ℚ) * pow2 (binade x - 52)

/-! ## ECMAScript arithmetic -/

/-- A decimal literal of the source text denotes the binary64 value nearest to it. -/
def lit (q : ℚ) : ℚ := rnd q

/-- The number `a + b`. -/
def fadd (a b : ℚ) : ℚ := rnd (a + b)

/-- The number `a - b`. -/
def fsub (a b : ℚ) : ℚ := rnd (a - b)

/-- The number `a * b`. -/
def fmul (a b : ℚ) : ℚ := rnd (a * b)

/-- The number `a / b`. -/
def fdiv (a b : ℚ) : ℚ := rnd (a / b)

/-- An integer read by `parseInt`, as a number. -/
def ofInt (n : ℤ) : ℚ := rnd n

/-- The integer nearest to `x`, a tie going up: `Math.round`. -/
def mathRound (x : ℚ) : ℚ := (⌊x + 1 / 2⌋ : ℤ)

/-- The smaller of two numbers: `Math.min`. -/
def mathMin (a b : ℚ) : ℚ := if a ≤ b then a else b

/-- The larger of two numbers: `Math.max`. -/
def mathMax (a b : ℚ) : ℚ := if a ≤ b then b else a

/-- A decimal string with exactly one digit after the point, which is what `toFixed(1)`
produces; `tenths` is the integer its digits spell once the point is dropped. -/
structure Decimal1 where
  tenths : ℤ
deriving DecidableEq, Repr

/-- The decimal number a string spells. -/
def Decimal1.value (d : Decimal1) : ℚ := (d.tenths : ℚ) / 10

/-- The string `x.toFixed(1)`: the integer `n` with `n / 10` nearest to `|x|`, the larger one
on a tie, under the sign of `x`. -/
def toFixed1 (x : ℚ) : Decimal1 :=
  if x < 0 then ⟨-⌊-x * 10 + 1 / 2⌋⟩ else ⟨⌊x * 10 + 1 / 2⌋⟩

/-- The number nearest to the decimal a string spells: `parseFloat`. -/
def parseFloat (d : Decimal1) : ℚ := rnd d.value

/-- The decimal digits of `n`, least significant first, found by dividing at most `fuel`
times. -/
def digitsFuel : ℕ → ℕ → List ℕ
  | 0, _ => []
  | fuel + 1, n => if n = 0 then [] else (n % 10) :: digitsFuel fuel (n / 10)

/-- The decimal digits of a natural number, most significant first. -/
def natDigits (n : ℕ) : List Char :=
  if n = 0 then ['0']
  else (digitsFuel n n).reverse.map (fun d => Char.ofNat (48 + d))

/-- The number of decimal digits of a positive natural number. -/
def decimalLength (n : ℕ) : ℕ := (digitsFuel n n).length

/-- The decimals `s * 10^e` with `k` digits `s` that lie next to the integer `x`, as pairs
`(s, e)`: for each place of the leading digit, the multiple of `10^e` below `x` and the one
above, the even one first. -/
def digitCandidates (x k : ℕ) : List (ℕ × ℕ) :=
  ([decimalLength x, decimalLength x + 1].filter (fun n => k ≤ n)).flatMap (fun n =>
    (if x / 10 ^ (n - k) % 2 = 0
      then [(x / 10 ^ (n - k), n - k), (x / 10 ^ (n - k) + 1, n - k)]
      else [(x / 10 ^ (n - k) + 1, n - k), (x / 10 ^ (n - k), n - k)]).filter
        (fun p => 10 ^ (k - 1) ≤ p.1 ∧ p.1 < 10 ^ k))

/-- The decimal `s * 10^e` denotes the Number `x`: it rounds to it. -/
def roundTrips (x : ℕ) (p : ℕ × ℕ) : Prop := rnd ((p.1 * 10 ^ p.2 : ℕ) : ℚ) = (x : ℚ)

instance (x : ℕ) (p : ℕ × ℕ) : Decidable (roundTrips x p) := by
  unfold roundTrips; infer_instance

/-- The decimal of `k` digits that denotes `x` and is nearest to it, if there is one. -/
def shortestOfLength (x k : ℕ) : Option (ℕ × ℕ) :=
  List.argmin (fun p => |((p.1 * 10 ^ p.2 : ℕ) : ℚ) - (x : ℚ)|)
    ((digitCandidates x k).filter (fun p => decide (roundTrips x p)))

/-- The digits `s` and the power of ten `e` that `String` prints for a positive integer
Number `x`: `s * 10^e` denotes `x` with as few digits as possible, and among those is
nearest to `x`.  Seventeen digits always suffice for a Number; the last case is there for
the integers that are not Numbers. -/
def shortestDecimal (x : ℕ) : ℕ × ℕ :=
  ((List.range 17).findSome? (fun i => shortestOfLength x (i + 1))).getD (x, 0)

/-- The text of the digits `s` before the exponent: the first digit, and after a point the
others if there are any. -/
def mantissaText : List Char → List Char
  | [] => []
  | d :: rest => d :: (if rest = [] then [] else '.' :: rest)

/-- The text `String` makes of a non-negative integer Number: up to 21 digits in full, and
beyond that the digits, the letter `e`, a plus sign and the exponent. -/
def numberText (x : ℕ) : List Char :=
  if decimalLength (shortestDecimal x).1 + (shortestDecimal x).2 ≤ 21 then
    natDigits ((shortestDecimal x).1 * 10 ^ (shortestDecimal x).2)
  else
    mantissaText (natDigits (shortestDecimal x).1) ++ ('e' :: '+' ::
      natDigits (decimalLength (shortestDecimal x).1 + (shortestDecimal x).2 - 1))

/-- The magnitude `2^1024`, from which on a rounded result is no longer finite. -/
def overflowBound : ℚ := ((2 ^ 1024 : ℕ) : ℚ)

/-- The string a template literal makes of an integer-valued number.  The integer `n` stands
for the Number nearest to it, as a numeric literal does, so `2^53 + 1` is printed as `2^53`
is and an integer beyond the finite range as `Infinity`. -/
def numberToString (n : ℤ) : String :=
  if overflowBound ≤ ofInt n then "Infinity"
  else if ofInt n ≤ -overflowBound then "-Infinity"
  else if ofInt n < 0 then String.mk ('-' :: numberText ⌊ofInt n⌋.natAbs)
  else String.mk (numberText ⌊ofInt n⌋.toNat)

/-- The errors a method can raise. -/
inductive JSError where
  | typeError
deriving DecidableEq, Repr

/-! ## Data model -/

/-- The object returned by `getCurrentConfig`. -/
structure Config where
  level : String
  cycles : ℤ
  bogusPercentage : ℤ
  stringEncryption : Bool
  fakeLooks : Bool
deriving DecidableEq, Repr

/-- One row of the `metrics` table of `getBaseMetrics`. -/
structure BaseMetrics where
  baseBogus : ℚ
  baseStrings : ℚ
  baseFakes : ℚ
  baseComplexity : ℚ
deriving DecidableEq, Repr

/-- One row of `performanceBaseline`. -/
structure Baseline where
  size : ℚ
  time : ℚ
  memory : ℚ
deriving DecidableEq, Repr

/-- The object returned by `calculatePerformanceImpact`: three `toFixed(1)` strings. -/
structure PerformanceImpact where
  size : Decimal1
  time : Decimal1
  memory : Decimal1
deriving DecidableEq, Repr

/-- The object returned by `getRecommendedSettings`; an absent property is `none`. -/
structure RecommendedSettings where
  level : Option String
  cycles : Option ℚ
deriving DecidableEq, Repr

/-- The object returned by `calculateObfuscationMetrics`. -/
structure DerivedMetrics where
  bogusInstructions : ℚ
  encryptedStrings : ℚ
  fakeLooks : ℚ
  controlFlowFunctions : ℚ
  complexityScore : ℚ
  securityScore : ℚ
  performanceImpact : PerformanceImpact
  recommendedSettings : RecommendedSettings
deriving DecidableEq, Repr

/-- One entry of the list built by `analyzeConfiguration`. -/
structure Recommendation where
  type : String
  message : String
  suggestion : String
deriving DecidableEq, Repr

/-- The object returned by `calculateOptimalSettings` when the search succeeds. -/
structure OptimalSettings where
  level : String
  cycles : ℤ
  bogusPercentage : ℤ
  stringEncryption : Bool
  fakeLooks : Bool
  securityScore : ℚ
  performanceImpact : ℚ
deriving DecidableEq, Repr

/-! ## Lookup tables -/

/-- The table `this.performanceBaseline`, keyed by level; a missing key is `undefined`.
Only the four own rows are described: at a name of `inheritedKeys` the program finds an
inherited member, and the statements about unrecognized levels exclude those names. -/
def performanceBaseline (level : String) : Option Baseline :=
  if level = "low" then some ⟨lit (105 / 100), lit (103 / 100), lit (104 / 100)⟩
  else if level = "medium" then some ⟨lit (115 / 100), lit (108 / 100), lit (112 / 100)⟩
  else if level = "high" then some ⟨lit (125 / 100), lit (115 / 100), lit (120 / 100)⟩
  else if level = "ultra" then some ⟨lit (140 / 100), lit (125 / 100), lit (135 / 100)⟩
  else none

/-- The table `metrics` local to `getBaseMetrics`: its four own rows, as for
`performanceBaseline`. -/
def metrics (level : String) : Option BaseMetrics :=
  if level = "low" then some ⟨500, 20, 5, 30⟩
  else if level = "medium" then some ⟨1500, 50, 12, 60⟩
  else if level = "high" then some ⟨4000, 100, 25, 85⟩
  else if level = "ultra" then some ⟨8000, 200, 50, 95⟩
  else none

/-- The row `metrics.medium`. -/
def metricsMedium : BaseMetrics := ⟨1500, 50, 12, 60⟩

/-- The method `getBaseMetrics`: `metrics[level] || metrics.medium`. -/
def getBaseMetrics (level : String) : BaseMetrics :=
  (metrics level).getD metricsMedium

/-- The table `baseFunctions` local to `calculateControlFlowFunctions`: its four own rows,
as for `performanceBaseline`. -/
def baseFunctions (level : String) : Option ℚ :=
  if level = "low" then some 3
  else if level = "medium" then some 8
  else if level = "high" then some 20
  else if level = "ultra" then some 40
  else none

/-! ## Derived counts -/

/-- The method `calculateBogusInstructions`. -/
def calculateBogusInstructions (config : Config) : ℚ :=
  let base := (getBaseMetrics config.level).baseBogus
  let bogusMultiplier := fdiv (ofInt config.bogusPercentage) 15
  let cycleMultiplier := fadd 1 (fmul (fsub (ofInt config.cycles) 1) (lit (3 / 10)))
  mathRound (fmul (fmul base bogusMultiplier) cycleMultiplier)

/-- The method `calculateEncryptedStrings`. -/
def calculateEncryptedStrings (config : Config) : ℚ :=
  if !config.stringEncryption then 0
  else
    let base := (getBaseMetrics config.level).baseStrings
    let cycleMultiplier := fadd 1 (fmul (fsub (ofInt config.cycles) 1) (lit (2 / 10)))
    mathRound (fmul base cycleMultiplier)

/-- The method `calculateFakeLooks`. -/
def calculateFakeLooks (config : Config) : ℚ :=
  if !config.fakeLooks then 0
  else
    let base := (getBaseMetrics config.level).baseFakes
    let cycleMultiplier := fadd 1 (fmul (fsub (ofInt config.cycles) 1) (lit (25 / 100)))
    mathRound (fmul base cycleMultiplier)

/-- The method `calculateControlFlowFunctions`: `baseFunctions[level] || baseFunctions.medium`. -/
def calculateControlFlowFunctions (config : Config) : ℚ :=
  let base := (baseFunctions config.level).getD 8
  let cycleMultiplier := fadd 1 (fmul (fsub (ofInt config.cycles) 1) (lit (4 / 10)))
  mathRound (fmul base cycleMultiplier)

/-! ## Scores -/

/-- The method `calculateComplexityScore`. -/
def calculateComplexityScore (config : Config) : ℚ :=
  let score0 := (getBaseMetrics config.level).baseComplexity
  let score1 := fadd score0 (fmul (fsub (ofInt config.cycles) 1) 8)
  let score2 := fadd score1 (fmul (fsub (ofInt config.bogusPercentage) 15) (lit (8 / 10)))
  let score3 := if config.stringEncryption then fadd score2 12 else score2
  let score4 := if config.fakeLooks then fadd score3 8 else score3
  mathMin (mathRound score4) 100

/-- The method `calculateSecurityScore`. -/
def calculateSecurityScore (config : Config) (complexity : ℚ) : ℚ :=
  let security0 := fmul complexity (lit (7 / 10))
  let security1 := if config.stringEncryption then fadd security0 15 else security0
  let security2 :=
    if config.level = "high" ∨ config.level = "ultra" then fadd security1 10 else security1
  let security3 := if ofInt config.cycles > 2 then fadd security2 5 else security2
  mathMin (mathRound security3) 100

/-! ## Performance projection -/

/-- The method `calculatePerformanceImpact`.  When `performanceBaseline[config.level]` is
`undefined`, reading `base.size` raises a `TypeError`. -/
def calculatePerformanceImpact (config : Config) : Except JSError PerformanceImpact :=
  match performanceBaseline config.level with
  | none => .error .typeError
  | some base =>
    let cycleMultiplier := fadd 1 (fmul (fsub (ofInt config.cycles) 1) (lit (8 / 100)))
    let bogusMultiplier :=
      fadd 1 (fmul (fdiv (ofInt config.bogusPercentage) 100) (lit (3 / 10)))
    .ok {
      size := toFixed1 (fmul (fsub (fmul (fmul base.size cycleMultiplier) bogusMultiplier) 1) 100)
      time := toFixed1 (fmul (fsub (fmul base.time cycleMultiplier) 1) 100)
      memory := toFixed1 (fmul (fsub (fmul base.memory cycleMultiplier) 1) 100) }

/-- The method `getRecommendedSettings`. -/
def getRecommendedSettings (config : Config) (complexity : ℚ) :
    Except JSError RecommendedSettings :=
  let r1 : RecommendedSettings :=
    if complexity < 50 then
      { level := some (if config.level = "low" then "medium" else config.level)
        cycles := some (mathMin (fadd (ofInt config.cycles) 1) 5) }
    else { level := none, cycles := none }
  if complexity > 80 then
    match calculatePerformanceImpact config with
    | .error e => .error e
    | .ok impact =>
      if parseFloat impact.time > 15 then
        .ok { r1 with cycles := some (mathMax (fsub (ofInt config.cycles) 1) 1) }
      else .ok r1
  else .ok r1

/-- The method `calculateObfuscationMetrics`. -/
def calculateObfuscationMetrics (config : Config) : Except JSError DerivedMetrics :=
  let complexity := calculateComplexityScore config
  match calculatePerformanceImpact config with
  | .error e => .error e
  | .ok performance =>
    let security := calculateSecurityScore config complexity
    match getRecommendedSettings config complexity with
    | .error e => .error e
    | .ok recommended =>
      .ok {
        bogusInstructions := calculateBogusInstructions config
        encryptedStrings := calculateEncryptedStrings config
        fakeLooks := calculateFakeLooks config
        controlFlowFunctions := calculateControlFlowFunctions config
        complexityScore := complexity
        securityScore := security
        performanceImpact := performance
        recommendedSettings := recommended }

/-! ## Advisory rules -/

/-- The entry pushed by the first rule of `analyzeConfiguration`. -/
def warningRecommendation : Recommendation :=
  { type := "warning"
    message := "High performance impact detected. Consider reducing obfuscation cycles."
    suggestion := "Try reducing cycles to 2-3 for better performance." }

/-- The entry pushed by the second rule of `analyzeConfiguration`. -/
def infoRecommendation : Recommendation :=
  { type := "info"
    message := "High bogus code percentage may affect maintainability."
    suggestion := "Keep bogus code below 30% for better debug capability." }

/-- The entry pushed by the third rule of `analyzeConfiguration`. -/
def successRecommendation : Recommendation :=
  { type := "success"
    message := "Good balance: String encryption adds security with minimal performance cost."
    suggestion := "Consider enabling control flow obfuscation for better protection." }

/-- The entry pushed by the fourth rule of `analyzeConfiguration`. -/
def errorRecommendation : Recommendation :=
  { type := "error"
    message := "Low security level detected."
    suggestion := "Increase obfuscation level to Medium or enable additional features." }

/-- The method `analyzeConfiguration`: four `if` statements, each pushing onto the array. -/
def analyzeConfiguration (config : Config) (results : DerivedMetrics) : List Recommendation :=
  let r0 : List Recommendation := []
  let r1 :=
    if results.securityScore > 90 ∧ parseFloat results.performanceImpact.time > 20
    then r0 ++ [warningRecommendation] else r0
  let r2 := if ofInt config.bogusPercentage > 30 then r1 ++ [infoRecommendation] else r1
  let r3 :=
    if config.level = "low" ∧ config.stringEncryption = true
    then r2 ++ [successRecommendation] else r2
  let r4 := if results.securityScore < 60 then r3 ++ [errorRecommendation] else r3
  r4

/-! ## Search for a configuration -/

/-- The configuration `testConfig` built in the body of the inner loop. -/
def testConfig (level : String) (cycles : ℤ) : Config :=
  { level := level, cycles := cycles, bogusPercentage := 15
    stringEncryption := true, fakeLooks := true }

/-- The body of the inner loop of `calculateOptimalSettings`: `some` when it returns out of
the method, `none` when the loop goes on. -/
def optimalStep (targetSecurity maxPerformanceImpact : ℚ) (level : String) (cycles : ℤ) :
    Except JSError (Option OptimalSettings) :=
  match calculateObfuscationMetrics (testConfig level cycles) with
  | .error e => .error e
  | .ok results =>
    let performanceImpact := parseFloat results.performanceImpact.time
    if results.securityScore ≥ targetSecurity ∧ performanceImpact ≤ maxPerformanceImpact then
      .ok (some {
        level := level, cycles := cycles, bogusPercentage := 15
        stringEncryption := true, fakeLooks := true
        securityScore := results.securityScore
        performanceImpact := performanceImpact })
    else .ok none

/-- The inner loop `for (let cycles = 1; cycles <= 5; cycles++)`, over the values the counter
still has to take. -/
def optimalCycles (targetSecurity maxPerformanceImpact : ℚ) (level : String) :
    List ℤ → Except JSError (Option OptimalSettings)
  | [] => .ok none
  | cycles :: rest =>
    match optimalStep targetSecurity maxPerformanceImpact level cycles with
    | .error e => .error e
    | .ok (some found) => .ok (some found)
    | .ok none => optimalCycles targetSecurity maxPerformanceImpact level rest

/-- The outer loop `for (let level of levels)`, over the levels still to visit; falling out
of it is the final `return null`. -/
def optimalLevels (targetSecurity maxPerformanceImpact : ℚ) :
    List String → Except JSError (Option OptimalSettings)
  | [] => .ok none
  | level :: rest =>
    match optimalCycles targetSecurity maxPerformanceImpact level [1, 2, 3, 4, 5] with
    | .error e => .error e
    | .ok (some found) => .ok (some found)
    | .ok none => optimalLevels targetSecurity maxPerformanceImpact rest

/-- The array `levels` of `calculateOptimalSettings`. -/
def levels : List String := ["low", "medium", "high", "ultra"]

/-- The method `calculateOptimalSettings`; `none` is its `null`. -/
def calculateOptimalSettings (targetSecurity maxPerformanceImpact : ℚ) :
    Except JSError (Option OptimalSettings) :=
  optimalLevels targetSecurity maxPerformanceImpact levels

/-- The call `calculateOptimalSettings()`, both parameters taking their default. -/
def calculateOptimalSettingsDefault : Except JSError (Option OptimalSettings) :=
  calculateOptimalSettings 80 15

/-! ## Export -/

/-- The method `generateCommandLine`. -/
def generateCommandLine (config : Config) : String :=
  let command0 := "./llvm_obfuscator -i input.bc -o output_obfuscated"
  let command1 := command0 ++ (" -l " ++ config.level)
  let command2 := command1 ++ (" -c " ++ numberToString config.cycles)
  let command3 := command2 ++ (" -b " ++ numberToString config.bogusPercentage)
  let command4 := if config.stringEncryption then command3 ++ " --string-encryption" else command3
  let command5 := if config.fakeLooks then command4 ++ " --fake-looks" else command4
  command5

deriving instance DecidableEq for Except

/-! ## The documented domain -/

/-- The levels of the four rows of each table. -/
def validLevel (level : String) : Prop :=
  level = "low" ∨ level = "medium" ∨ level = "high" ∨ level = "ultra"

instance (level : String) : Decidable (validLevel level) := by
  unfold validLevel; infer_instance

/-- The names of the members that every object inherits from `Object.prototype`.  A
lookup `table[level]` at one of these names finds the inherited member instead of
`undefined`; the tables above describe the lookups at every other name. -/
def inheritedKeys : List String :=
  ["constructor", "hasOwnProperty", "isPrototypeOf", "propertyIsEnumerable",
    "toLocaleString", "toString", "valueOf", "__proto__", "__defineGetter__",
    "__defineSetter__", "__lookupGetter__", "__lookupSetter__"]

/-- The configurations of the documented domain. -/
def validConfig (c : Config) : Prop :=
  validLevel c.level ∧ 1 ≤ c.cycles ∧ 0 ≤ c.bogusPercentage ∧ c.bogusPercentage ≤ 100

instance (c : Config) : Decidable (validConfig c) := by
  unfold validConfig; infer_instance

/-- The integer is the value of a Number: it is finite and binary64 holds it exactly. -/
def isNumber (n : ℤ) : Prop := ofInt n = (n : ℚ) ∧ |(n : ℚ)| < overflowBound

instance (n : ℤ) : Decidable (isNumber n) := by
  unfold isNumber; infer_instance

/-! ## The advisory rules, as the specification words them -/

/-- The four rules in their order of priority, each with the condition under which it
applies: the time percentage is the decimal the `time` string spells. -/
def rules (config : Config) (results : DerivedMetrics) : List (Bool × Recommendation) :=
  [ (decide (results.securityScore > 90 ∧ results.performanceImpact.time.value > 20),
      warningRecommendation),
    (decide (config.bogusPercentage > 30), infoRecommendation),
    (decide (config.level = "low" ∧ config.stringEncryption = true), successRecommendation),
    (decide (results.securityScore < 60), errorRecommendation) ]

/-- The recommendations of the rules that apply, in the order of the rules. -/
def applicableRecommendations (config : Config) (results : DerivedMetrics) :
    List Recommendation :=
  ((rules config results).filter (fun r => r.1)).map (fun r => r.2)

/-! ## The search grid, as the specification words it -/

/-- The twenty candidates in the order of the search: the levels low, medium, high, ultra,
and within a level the cycles 1 to 5, with 15 percent of bogus code and both features. -/
def candidates : List Config :=
  ["low", "medium", "high", "ultra"].flatMap
    (fun level => [1, 2, 3, 4, 5].map (fun cycles => ⟨level, cycles, 15, true, true⟩))

/-- A candidate meets the targets when its security score reaches `targetSecurity` and its
time percentage, as a number, does not exceed `maxPerformanceImpact`. -/
def meetsTargets (targetSecurity maxPerformanceImpact : ℚ) (c : Config) : Prop :=
  ∃ m, calculateObfuscationMetrics c = .ok m ∧ targetSecurity ≤ m.securityScore ∧
    parseFloat m.performanceImpact.time ≤ maxPerformanceImpact

/-- The object the search returns for a candidate with the given metrics. -/
def reportOf (c : Config) (m : DerivedMetrics) : OptimalSettings :=
  { level := c.level, cycles := c.cycles, bogusPercentage := c.bogusPercentage
    stringEncryption := c.stringEncryption, fakeLooks := c.fakeLooks
    securityScore := m.securityScore
    performanceImpact := parseFloat m.performanceImpact.time }

/-- The outcome of the search at one candidate: its report when it meets the targets. -/
def found (targetSecurity maxPerformanceImpact : ℚ) (c : Config) : Option OptimalSettings :=
  match calculateObfuscationMetrics c with
  | .ok m =>
    if targetSecurity ≤ m.securityScore ∧
        parseFloat m.performanceImpact.time ≤ maxPerformanceImpact
    then some (reportOf c m) else none
  | .error _ => none

/-! ## The command line, as the specification words it -/

/-- The text of the two optional flags. -/
def flagsText (stringEncryption fakeLooks : Bool) : List Char :=
  (if stringEncryption then " --string-encryption".data else []) ++
  (if fakeLooks then " --fake-looks".data else [])

/-! ## The bogus-instruction count, as the specification words it -/

/-- The constant `baseBogus` of a level: 500, 1500, 4000, 8000 for low, medium, high,
ultra. -/
def baseBogus (level : String) : ℚ :=
  if level = "low" then 500
  else if level = "medium" then 1500
  else if level = "high" then 4000
  else 8000

/-- The real number `baseBogus(level) * (bogusPercentage / 15) * (1 + (cycles - 1) * 0.3)`,
in exact arithmetic. -/
def exactBogusInstructions (c : Config) : ℚ :=
  baseBogus c.level * ((c.bogusPercentage : ℚ) / 15) * (1 + ((c.cycles : ℚ) - 1) * (3 / 10))

/-- The specified count: the exact value rounded half-up to an integer. -/
def specBogusInstructions (c : Config) : ℤ := ⌊exactBogusInstructions c + 1 / 2⌋

/-- The relative precision of one rounding: `2^-53`. -/
def unitRoundoff : ℚ := 1 / 2 ^ 53

/-- The number `a` approximates the non-negative real `A` after at most `k` roundings. -/
def approx (k : ℕ) (a A : ℚ) : Prop :=
  A * (1 - unitRoundoff) ^ k ≤ a ∧ a ≤ A * (1 + unitRoundoff) ^ k

/-! ## Numbers with their full range

The methods of the first sections compute with finite numbers only.  The definitions of this section give
the same methods over all the values a Number can take, so that an overflow to `Infinity`
and the `NaN` of an inherited table member are results like any other.  Where every
intermediate result is finite and the level names no inherited member, the two agree
(`calculateBogusInstructions_eq_fin` and its siblings below). -/

/-- A Number: `NaN`, an infinity, or a finite binary64 value, given by the rational it
denotes. -/
inductive Number where
  | nan
  | negInf
  | fin (q : ℚ)
  | posInf
deriving DecidableEq, Repr

namespace Number

/-- The Number nearest to a real number: rounding to binary64 precision, a rounded
magnitude of `2^1024` or more giving an infinity. -/
def ofRat (x : ℚ) : Number :=
  if overflowBound ≤ rnd x then posInf
  else if rnd x ≤ -overflowBound then negInf
  else fin (rnd x)

/-- The Number `-a`. -/
def neg : Number → Number
  | nan => nan
  | negInf => posInf
  | fin a => fin (-a)
  | posInf => negInf

/-- The Number `a + b`. -/
def add : Number → Number → Number
  | fin a, fin b => ofRat (a + b)
  | nan, _ => nan
  | _, nan => nan
  | posInf, negInf => nan
  | negInf, posInf => nan
  | posInf, _ => posInf
  | _, posInf => posInf
  | negInf, _ => negInf
  | _, negInf => negInf

/-- The Number `a - b`. -/
def sub : Number → Number → Number
  | fin a, fin b => ofRat (a - b)
  | a, b => add a (neg b)

/-- The infinity of the sign of `s * t`, or `NaN` when `t` is zero. -/
def infTimes (positive : Bool) (t : ℚ) : Number :=
  if t = 0 then nan else if (0 < t) = positive then posInf else negInf

/-- The Number `a * b`. -/
def mul : Number → Number → Number
  | fin a, fin b => ofRat (a * b)
  | nan, _ => nan
  | _, nan => nan
  | posInf, fin b => infTimes true b
  | negInf, fin b => infTimes false b
  | fin a, posInf => infTimes true a
  | fin a, negInf => infTimes false a
  | posInf, posInf => posInf
  | negInf, negInf => posInf
  | posInf, negInf => negInf
  | negInf, posInf => negInf

/-- The Number `a / b`; the zero of the model is the positive zero. -/
def div : Number → Number → Number
  | fin a, fin b =>
    if b = 0 then (if a = 0 then nan else if 0 < a then posInf else negInf)
    else ofRat (a / b)
  | nan, _ => nan
  | _, nan => nan
  | posInf, fin b => if 0 ≤ b then posInf else negInf
  | negInf, fin b => if 0 ≤ b then negInf else posInf
  | fin _, posInf => fin 0
  | fin _, negInf => fin 0
  | _, _ => nan

/-- The Number `Math.round(a)`: `NaN` and the infinities are returned as they are. -/
def round : Number → Number
  | fin a => fin (mathRound a)
  | a => a

/-- The Number a decimal literal of the source text denotes. -/
def lit (q : ℚ) : Number := ofRat q

/-- An integer read by `parseInt`, as a Number. -/
def ofInt (n : ℤ) : Number := ofRat n

/-- The Number `x` is the finite non-negative value `v`, which is at most `B`. -/
def IsFin (x : Number) (v B : ℚ) : Prop := x = fin v ∧ 0 ≤ v ∧ v ≤ B

end Number

/-- The string `toFixed(1)` or `String` makes of a Number: a decimal with one digit after the
point, the text of a finite Number of magnitude `10^21` or more, which `toFixed` prints
like `String` does and which is kept as the Number it spells, or one of `Infinity`,
`-Infinity` and `NaN`. -/
inductive NumberString where
  | decimal (d : Decimal1)
  | large (x : ℚ)
  | infinity
  | negInfinity
  | nan
deriving DecidableEq, Repr

/-- The finite value a string spells, if it spells one. -/
def NumberString.value? : NumberString → Option ℚ
  | .decimal d => some d.value
  | .large x => some x
  | _ => none

/-- The string `a.toFixed(1)`. -/
def Number.toFixed1 : Number → NumberString
  | .fin a => if (10 : ℚ) ^ 21 ≤ |a| then .large a else .decimal (ParameterCalculator.toFixed1 a)
  | .posInf => .infinity
  | .negInf => .negInfinity
  | .nan => .nan

namespace Binary64

/-- One row of the `metrics` table; the fields of an inherited member are `undefined`, which
arithmetic turns into `NaN`. -/
structure BaseMetrics where
  baseBogus : Number
  baseStrings : Number
  baseFakes : Number
  baseComplexity : Number
deriving DecidableEq, Repr

/-- One row of `performanceBaseline`. -/
structure Baseline where
  size : Number
  time : Number
  memory : Number
deriving DecidableEq, Repr

/-- The object returned by `calculatePerformanceImpact`. -/
structure PerformanceImpact where
  size : NumberString
  time : NumberString
  memory : NumberString
deriving DecidableEq, Repr

/-- The lookup `this.performanceBaseline[level]`: an own row, an inherited member, whose
`size`, `time` and `memory` are `undefined`, or `undefined`. -/
def performanceBaseline (level : String) : Option Baseline :=
  if level = "low" then
    some ⟨Number.lit (105 / 100), Number.lit (103 / 100), Number.lit (104 / 100)⟩
  else if level = "medium" then
    some ⟨Number.lit (115 / 100), Number.lit (108 / 100), Number.lit (112 / 100)⟩
  else if level = "high" then
    some ⟨Number.lit (125 / 100), Number.lit (115 / 100), Number.lit (120 / 100)⟩
  else if level = "ultra" then
    some ⟨Number.lit (140 / 100), Number.lit (125 / 100), Number.lit (135 / 100)⟩
  else if level ∈ inheritedKeys then some ⟨.nan, .nan, .nan⟩
  else none

/-- The lookup `metrics[level]` of `getBaseMetrics`. -/
def metrics (level : String) : Option BaseMetrics :=
  if level = "low" then some ⟨.fin 500, .fin 20, .fin 5, .fin 30⟩
  else if level = "medium" then some ⟨.fin 1500, .fin 50, .fin 12, .fin 60⟩
  else if level = "high" then some ⟨.fin 4000, .fin 100, .fin 25, .fin 85⟩
  else if level = "ultra" then some ⟨.fin 8000, .fin 200, .fin 50, .fin 95⟩
  else if level ∈ inheritedKeys then some ⟨.nan, .nan, .nan, .nan⟩
  else none

/-- The method `getBaseMetrics`: `metrics[level] || metrics.medium`; an inherited member is
an object or a function, hence truthy. -/
def getBaseMetrics (level : String) : BaseMetrics :=
  (metrics level).getD ⟨.fin 1500, .fin 50, .fin 12, .fin 60⟩

/-- The lookup `baseFunctions[level]`; an inherited member multiplies to `NaN`. -/
def baseFunctions (level : String) : Option Number :=
  if level = "low" then some (.fin 3)
  else if level = "medium" then some (.fin 8)
  else if level = "high" then some (.fin 20)
  else if level = "ultra" then some (.fin 40)
  else if level ∈ inheritedKeys then some .nan
  else none

/-- The method `calculateBogusInstructions`. -/
def calculateBogusInstructions (config : Config) : Number :=
  let base := (getBaseMetrics config.level).baseBogus
  let bogusMultiplier := Number.div (Number.ofInt config.bogusPercentage) (.fin 15)
  let cycleMultiplier :=
    Number.add (.fin 1)
      (Number.mul (Number.sub (Number.ofInt config.cycles) (.fin 1)) (Number.lit (3 / 10)))
  Number.round (Number.mul (Number.mul base bogusMultiplier) cycleMultiplier)

/-- The method `calculateEncryptedStrings`. -/
def calculateEncryptedStrings (config : Config) : Number :=
  if !config.stringEncryption then .fin 0
  else
    let base := (getBaseMetrics config.level).baseStrings
    let cycleMultiplier :=
      Number.add (.fin 1)
        (Number.mul (Number.sub (Number.ofInt config.cycles) (.fin 1)) (Number.lit (2 / 10)))
    Number.round (Number.mul base cycleMultiplier)

/-- The method `calculateFakeLooks`. -/
def calculateFakeLooks (config : Config) : Number :=
  if !config.fakeLooks then .fin 0
  else
    let base := (getBaseMetrics config.level).baseFakes
    let cycleMultiplier :=
      Number.add (.fin 1)
        (Number.mul (Number.sub (Number.ofInt config.cycles) (.fin 1)) (Number.lit (25 / 100)))
    Number.round (Number.mul base cycleMultiplier)

/-- The method `calculateControlFlowFunctions`. -/
def calculateControlFlowFunctions (config : Config) : Number :=
  let base := (baseFunctions config.level).getD (.fin 8)
  let cycleMultiplier :=
    Number.add (.fin 1)
      (Number.mul (Number.sub (Number.ofInt config.cycles) (.fin 1)) (Number.lit (4 / 10)))
  Number.round (Number.mul base cycleMultiplier)

/-- The method `calculatePerformanceImpact`.  When `performanceBaseline[config.level]` is
`undefined`, reading `base.size` raises a `TypeError`. -/
def calculatePerformanceImpact (config : Config) : Except JSError PerformanceImpact :=
  match performanceBaseline config.level with
  | none => .error .typeError
  | some base =>
    let cycleMultiplier :=
      Number.add (.fin 1)
        (Number.mul (Number.sub (Number.ofInt config.cycles) (.fin 1)) (Number.lit (8 / 100)))
    let bogusMultiplier :=
      Number.add (.fin 1)
        (Number.mul (Number.div (Number.ofInt config.bogusPercentage) (.fin 100))
          (Number.lit (3 / 10)))
    .ok {
      size := Number.toFixed1 (Number.mul (Number.sub
        (Number.mul (Number.mul base.size cycleMultiplier) bogusMultiplier) (.fin 1)) (.fin 100))
      time := Number.toFixed1 (Number.mul (Number.sub
        (Number.mul base.time cycleMultiplier) (.fin 1)) (.fin 100))
      memory := Number.toFixed1 (Number.mul (Number.sub
        (Number.mul base.memory cycleMultiplier) (.fin 1)) (.fin 100)) }

end Binary64

/-! ## Properties of the rounding -/

theorem pow2_eq (e : ℤ) : pow2 e = (2 : ℚ) ^ e := by
  unfold pow2
  split_ifs with h
  · lift e to ℕ using h
    simp
  · push_neg at h
    obtain ⟨n, rfl⟩ : ∃ n : ℕ, e = -(n : ℤ) := ⟨(-e).toNat, by omega⟩
    simp

theorem pow2_pos (e : ℤ) : 0 < pow2 e := by
  rw [pow2_eq]; positivity

theorem log2Aux_spec (fuel n : ℕ) (hf : n ≤ fuel) (hn : n ≠ 0) :
    2 ^ log2Aux fuel n ≤ n ∧ n < 2 ^ (log2Aux fuel n + 1) := by
  induction fuel generalizing n with
  | zero => omega
  | succ fuel ih =>
    unfold log2Aux
    split_ifs with h
    · have h1 : n / 2 ≤ fuel := by omega
      have h2 : n / 2 ≠ 0 := by omega
      obtain ⟨a, b⟩ := ih (n / 2) h1 h2
      constructor
      · rw [pow_succ]; omega
      · rw [pow_succ]; omega
    · constructor
      · simp; omega
      · simp; omega

theorem ilog2_self_le (n : ℕ) (hn : n ≠ 0) : 2 ^ ilog2 n ≤ n :=
  (log2Aux_spec n n le_rfl hn).1

theorem lt_ilog2_self (n : ℕ) (hn : n ≠ 0) : n < 2 ^ (ilog2 n + 1) :=
  (log2Aux_spec n n le_rfl hn).2

theorem binadeNat_spec (p q : ℕ) (hp : 0 < p) (hq : 0 < q) :
    (2 : ℚ) ^ (binadeNat p q) ≤ (p : ℚ) / q ∧ (p : ℚ) / q < (2 : ℚ) ^ (binadeNat p q + 1) := by
  have hq0 : (0 : ℚ) < q := by exact_mod_cast hq
  have hp0 : (0 : ℚ) < p := by exact_mod_cast hp
  unfold binadeNat
  split_ifs with h
  · have hn : p / q ≠ 0 := by
      have := Nat.div_pos h hq
      omega
    have h1 := ilog2_self_le _ hn
    have h2 := lt_ilog2_self _ hn
    have h3 : p < q * (p / q + 1) := Nat.lt_mul_div_succ p hq
    constructor
    · rw [zpow_natCast]
      calc (2 : ℚ) ^ ilog2 (p / q) = ((2 ^ ilog2 (p / q) : ℕ) : ℚ) := by push_cast; rfl
        _ ≤ ((p / q : ℕ) : ℚ) := by exact_mod_cast h1
        _ ≤ (p : ℚ) / q := Nat.cast_div_le
    · have e1 : (ilog2 (p / q) : ℤ) + 1 = ((ilog2 (p / q) + 1 : ℕ) : ℤ) := by push_cast; rfl
      rw [e1, zpow_natCast, div_lt_iff₀ hq0]
      have h4 : (p : ℚ) < q * ((p / q : ℕ) + 1) := by exact_mod_cast h3
      have h5 : (((p / q : ℕ) : ℚ) + 1) ≤ (2 : ℚ) ^ (ilog2 (p / q) + 1) := by
        exact_mod_cast h2
      nlinarith
  · push_neg at h
    set m := (q - 1) / p with hm
    have hm0 : m ≠ 0 := by
      have : 0 < (q - 1) / p := Nat.div_pos (by omega) hp
      omega
    have h1 := ilog2_self_le _ hm0
    have h2 := lt_ilog2_self _ hm0
    have h3 : q - 1 < p * (m + 1) := Nat.lt_mul_div_succ (q - 1) hp
    have h4 : m * p ≤ q - 1 := Nat.div_mul_le_self (q - 1) p
    have e0 : Int.negSucc (ilog2 m) = -((ilog2 m + 1 : ℕ) : ℤ) := rfl
    constructor
    · rw [e0, zpow_neg, zpow_natCast, le_div_iff₀ hq0, inv_mul_le_iff₀ (by positivity)]
      have h5 : q ≤ p * (m + 1) := by omega
      have h6 : p * (m + 1) ≤ p * 2 ^ (ilog2 m + 1) := Nat.mul_le_mul_left p h2
      have h7 : q ≤ 2 ^ (ilog2 m + 1) * p := by
        rw [Nat.mul_comm]; exact le_trans h5 h6
      exact_mod_cast h7
    · have e1 : Int.negSucc (ilog2 m) + 1 = -((ilog2 m : ℕ) : ℤ) := by
        rw [e0]; push_cast; ring
      rw [e1, zpow_neg, zpow_natCast, div_lt_iff₀ hq0, lt_inv_mul_iff₀ (by positivity)]
      have h5 : 2 ^ ilog2 m * p ≤ m * p := Nat.mul_le_mul_right p h1
      have h6 : 2 ^ ilog2 m * p < q := by omega
      exact_mod_cast h6

theorem abs_eq_natAbs_div (x : ℚ) : |x| = (x.num.natAbs : ℚ) / x.den := by
  conv_lhs => rw [← Rat.num_div_den x]
  rw [abs_div, Nat.abs_cast]
  congr 1
  rw [Nat.cast_natAbs, Int.cast_abs]

theorem binade_spec (x : ℚ) (hx : x ≠ 0) :
    (2 : ℚ) ^ (binade x) ≤ |x| ∧ |x| < (2 : ℚ) ^ (binade x + 1) := by
  rw [abs_eq_natAbs_div]
  apply binadeNat_spec
  · exact Int.natAbs_pos.mpr (Rat.num_ne_zero.mpr hx)
  · exact x.den_pos

theorem binade_neg (x : ℚ) : binade (-x) = binade x := by
  unfold binade
  simp

theorem binade_mono (x y : ℚ) (hx : 0 < x) (hxy : x ≤ y) : binade x ≤ binade y := by
  have h1 := (binade_spec x hx.ne').1
  have h2 := (binade_spec y (lt_of_lt_of_le hx hxy).ne').2
  rw [abs_of_pos hx] at h1
  rw [abs_of_pos (lt_of_lt_of_le hx hxy)] at h2
  have h3 : (2 : ℚ) ^ (binade x) < (2 : ℚ) ^ (binade y + 1) := by linarith
  have h4 := (zpow_lt_zpow_iff_right₀ (by norm_num : (1 : ℚ) < 2)).mp h3
  omega

theorem roundHalfEven_cases (y : ℚ) : roundHalfEven y = ⌊y⌋ ∨ roundHalfEven y = ⌊y⌋ + 1 := by
  unfold roundHalfEven
  simp only
  split_ifs <;> simp

theorem roundHalfEven_sub_le (y : ℚ) : (roundHalfEven y : ℚ) - y ≤ 1 / 2 := by
  have h1 := Int.floor_le y
  have h2 := Int.lt_floor_add_one y
  unfold roundHalfEven
  simp only
  split_ifs with a b c
  · linarith
  · push_cast; linarith
  · linarith
  · push_cast; linarith

theorem sub_roundHalfEven_le (y : ℚ) : y - (roundHalfEven y : ℚ) ≤ 1 / 2 := by
  have h1 := Int.floor_le y
  have h2 := Int.lt_floor_add_one y
  unfold roundHalfEven
  simp only
  split_ifs with a b c
  · linarith
  · push_cast; linarith
  · linarith
  · push_cast; linarith

theorem roundHalfEven_intCast (n : ℤ) : roundHalfEven (n : ℚ) = n := by
  unfold roundHalfEven
  simp

theorem roundHalfEven_mono (y z : ℚ) (h : y ≤ z) : roundHalfEven y ≤ roundHalfEven z := by
  have hf : ⌊y⌋ ≤ ⌊z⌋ := Int.floor_le_floor h
  rcases lt_or_eq_of_le hf with hlt | heq
  · have h1 : roundHalfEven y ≤ ⌊y⌋ + 1 := by
      rcases roundHalfEven_cases y with e | e <;> omega
    have h2 : ⌊z⌋ ≤ roundHalfEven z := by
      rcases roundHalfEven_cases z with e | e <;> omega
    omega
  · unfold roundHalfEven
    simp only
    rw [← heq]
    have hyz : y - (⌊y⌋ : ℚ) ≤ z - (⌊y⌋ : ℚ) := by linarith
    split_ifs <;> first | omega | (exfalso; linarith)

theorem roundHalfEven_neg (y : ℚ) : roundHalfEven (-y) = -roundHalfEven y := by
  by_cases hy : (⌊y⌋ : ℚ) = y
  · rw [← hy, ← Int.cast_neg, roundHalfEven_intCast, roundHalfEven_intCast]
  · have h1 := Int.floor_le y
    have h2 := Int.lt_floor_add_one y
    have h3 : (⌊y⌋ : ℚ) < y := lt_of_le_of_ne h1 hy
    have hfl : ⌊-y⌋ = -⌊y⌋ - 1 := by
      rw [Int.floor_eq_iff]
      push_cast
      constructor <;> linarith
    unfold roundHalfEven
    simp only
    rw [hfl]
    push_cast
    split_ifs <;> first | omega | (exfalso; linarith)

theorem rnd_zero : rnd 0 = 0 := by
  unfold rnd; simp

theorem rnd_neg (x : ℚ) : rnd (-x) = -rnd x := by
  unfold rnd
  by_cases hx : x = 0
  · simp [hx]
  · have hx2 : -x ≠ 0 := neg_ne_zero.mpr hx
    rw [if_neg hx, if_neg hx2, binade_neg, neg_div, roundHalfEven_neg]
    push_cast
    ring

/-- For positive `x`, the scaled value lies in `[2^52, 2^53)`. -/
theorem scaled_bounds (x : ℚ) (hx : 0 < x) :
    (2 : ℚ) ^ (52 : ℕ) ≤ x / pow2 (binade x - 52) ∧ x / pow2 (binade x - 52) < (2 : ℚ) ^ (53 : ℕ) := by
  have hs := binade_spec x hx.ne'
  rw [abs_of_pos hx] at hs
  have hp : (0 : ℚ) < (2 : ℚ) ^ (binade x - 52) := by positivity
  rw [pow2_eq, le_div_iff₀ hp, div_lt_iff₀ hp]
  have e1 : (2 : ℚ) ^ (52 : ℕ) * (2 : ℚ) ^ (binade x - 52) = (2 : ℚ) ^ (binade x) := by
    rw [← zpow_natCast, ← zpow_add₀ (by norm_num : (2 : ℚ) ≠ 0)]
    congr 1; push_cast; ring
  have e2 : (2 : ℚ) ^ (53 : ℕ) * (2 : ℚ) ^ (binade x - 52) = (2 : ℚ) ^ (binade x + 1) := by
    rw [← zpow_natCast, ← zpow_add₀ (by norm_num : (2 : ℚ) ≠ 0)]
    congr 1; push_cast; ring
  rw [e1, e2]
  exact hs

theorem rnd_pos_bounds (x : ℚ) (hx : 0 < x) :
    (2 : ℚ) ^ (binade x) ≤ rnd x ∧ rnd x ≤ (2 : ℚ) ^ (binade x + 1) := by
  have hs := scaled_bounds x hx
  have hp : (0 : ℚ) < (2 : ℚ) ^ (binade x - 52) := by positivity
  have e1 : (2 : ℚ) ^ (52 : ℕ) * (2 : ℚ) ^ (binade x - 52) = (2 : ℚ) ^ (binade x) := by
    rw [← zpow_natCast, ← zpow_add₀ (by norm_num : (2 : ℚ) ≠ 0)]
    congr 1; push_cast; ring
  have e2 : (2 : ℚ) ^ (53 : ℕ) * (2 : ℚ) ^ (binade x - 52) = (2 : ℚ) ^ (binade x + 1) := by
    rw [← zpow_natCast, ← zpow_add₀ (by norm_num : (2 : ℚ) ≠ 0)]
    congr 1; push_cast; ring
  have r1 : ((2 ^ 52 : ℤ)) ≤ roundHalfEven (x / pow2 (binade x - 52)) := by
    have := roundHalfEven_mono ((2 ^ 52 : ℤ) : ℚ) _ (by push_cast; exact hs.1)
    rwa [roundHalfEven_intCast] at this
  have r2 : roundHalfEven (x / pow2 (binade x - 52)) ≤ ((2 ^ 53 : ℤ)) := by
    have := roundHalfEven_mono _ ((2 ^ 53 : ℤ) : ℚ) (by push_cast; exact hs.2.le)
    rwa [roundHalfEven_intCast] at this
  have r1q : ((2 : ℚ) ^ (52 : ℕ)) ≤ (roundHalfEven (x / pow2 (binade x - 52)) : ℚ) := by
    exact_mod_cast r1
  have r2q : (roundHalfEven (x / pow2 (binade x - 52)) : ℚ) ≤ ((2 : ℚ) ^ (53 : ℕ)) := by
    exact_mod_cast r2
  unfold rnd
  rw [pow2_eq] at r1q r2q
  rw [if_neg hx.ne', pow2_eq, ← e1, ← e2]
  constructor
  · exact mul_le_mul_of_nonneg_right r1q hp.le
  · exact mul_le_mul_of_nonneg_right r2q hp.le

theorem rnd_pos (x : ℚ) (hx : 0 < x) : 0 < rnd x :=
  lt_of_lt_of_le (by positivity) (rnd_pos_bounds x hx).1

theorem rnd_mono_pos (x y : ℚ) (hx : 0 < x) (hxy : x ≤ y) : rnd x ≤ rnd y := by
  have hy : 0 < y := lt_of_lt_of_le hx hxy
  have hb := binade_mono x y hx hxy
  rcases lt_or_eq_of_le hb with hlt | heq
  · have h1 := (rnd_pos_bounds x hx).2
    have h2 := (rnd_pos_bounds y hy).1
    have h3 : (2 : ℚ) ^ (binade x + 1) ≤ (2 : ℚ) ^ (binade y) :=
      zpow_le_zpow_right₀ (by norm_num) (by omega)
    linarith
  · unfold rnd
    rw [if_neg hx.ne', if_neg hy.ne', heq]
    have hp : (0 : ℚ) < pow2 (binade y - 52) := pow2_pos _
    apply mul_le_mul_of_nonneg_right _ hp.le
    have : roundHalfEven (x / pow2 (binade y - 52)) ≤ roundHalfEven (y / pow2 (binade y - 52)) :=
      roundHalfEven_mono _ _ (div_le_div_of_nonneg_right hxy hp.le)
    exact_mod_cast this

theorem rnd_mono (x y : ℚ) (hxy : x ≤ y) : rnd x ≤ rnd y := by
  rcases lt_trichotomy 0 x with hx | hx | hx
  · exact rnd_mono_pos x y hx hxy
  · subst hx
    rw [rnd_zero]
    rcases eq_or_lt_of_le hxy with h | h
    · rw [← h, rnd_zero]
    · exact (rnd_pos y h).le
  · have hnx : rnd x < 0 := by
      have := rnd_pos (-x) (by linarith)
      rw [rnd_neg] at this
      linarith
    rcases lt_trichotomy 0 y with hy | hy | hy
    · exact le_trans hnx.le (rnd_pos y hy).le
    · subst hy; rw [rnd_zero]; exact hnx.le
    · have := rnd_mono_pos (-y) (-x) (by linarith) (by linarith)
      rw [rnd_neg, rnd_neg] at this
      linarith

/-- The rounding error is at most half a unit in the last place, hence at most `2^-53 |x|`. -/
theorem rnd_err_pos (x : ℚ) (hx : 0 < x) : |rnd x - x| ≤ x / 2 ^ (53 : ℕ) := by
  have hs := scaled_bounds x hx
  have hp : (0 : ℚ) < pow2 (binade x - 52) := pow2_pos _
  set u := pow2 (binade x - 52) with hu
  have h1 := roundHalfEven_sub_le (x / u)
  have h2 := sub_roundHalfEven_le (x / u)
  have hxu : x / u * u = x := div_mul_cancel₀ x hp.ne'
  have e : rnd x - x = ((roundHalfEven (x / u) : ℚ) - x / u) * u := by
    unfold rnd
    rw [if_neg hx.ne']
    rw [sub_mul, hxu]
  rw [e, abs_mul, abs_of_pos hp]
  have h3 : |(roundHalfEven (x / u) : ℚ) - x / u| ≤ 1 / 2 := abs_le.mpr ⟨by linarith, h1⟩
  have h4 : u * 2 ^ (52 : ℕ) ≤ x := by
    have := hs.1
    rw [le_div_iff₀ hp] at this
    linarith
  calc |(roundHalfEven (x / u) : ℚ) - x / u| * u ≤ 1 / 2 * u :=
        mul_le_mul_of_nonneg_right h3 hp.le
    _ ≤ x / 2 ^ (53 : ℕ) := by
        rw [le_div_iff₀ (by positivity)]
        norm_num at h4 ⊢
        linarith

theorem rnd_intCast_pos (n : ℤ) (h0 : 0 < n) (h : n < 2 ^ 53) : rnd (n : ℚ) = n := by
  have hx : (0 : ℚ) < n := by exact_mod_cast h0
  have hs := (binade_spec (n : ℚ) hx.ne').1
  rw [abs_of_pos hx] at hs
  have hlt : (2 : ℚ) ^ (binade (n : ℚ)) < (2 : ℚ) ^ (53 : ℤ) := by
    have : (n : ℚ) < (2 : ℚ) ^ (53 : ℤ) := by
      calc (n : ℚ) < (2 : ℚ) ^ (53 : ℕ) := by exact_mod_cast h
        _ = (2 : ℚ) ^ (53 : ℤ) := by norm_num
    linarith
  have he := (zpow_lt_zpow_iff_right₀ (by norm_num : (1 : ℚ) < 2)).mp hlt
  obtain ⟨k, hk⟩ : ∃ k : ℕ, binade (n : ℚ) - 52 = -(k : ℤ) :=
    ⟨(52 - binade (n : ℚ)).toNat, by omega⟩
  unfold rnd
  rw [if_neg hx.ne', hk, pow2_eq, zpow_neg, zpow_natCast]
  have e1 : (n : ℚ) / ((2 : ℚ) ^ k)⁻¹ = ((n * 2 ^ k : ℤ) : ℚ) := by
    push_cast
    rw [div_inv_eq_mul]
  rw [e1, roundHalfEven_intCast]
  push_cast
  have : ((2 : ℚ) ^ k) ≠ 0 := by positivity
  field_simp

theorem rnd_intCast (n : ℤ) (h : |n| < 2 ^ 53) : rnd (n : ℚ) = n := by
  rcases lt_trichotomy 0 n with hn | hn | hn
  · exact rnd_intCast_pos n hn (by rw [abs_of_pos hn] at h; exact h)
  · subst hn; simp [rnd_zero]
  · have h2 := rnd_intCast_pos (-n) (by omega) (by rw [abs_of_neg hn] at h; exact h)
    push_cast at h2
    rw [rnd_neg] at h2
    linarith

/-! ## Consequences for the arithmetic operations -/

theorem rnd_nonneg (x : ℚ) (hx : 0 ≤ x) : 0 ≤ rnd x := by
  have := rnd_mono 0 x hx
  rwa [rnd_zero] at this

theorem le_rnd_of_intCast_le (n : ℤ) (x : ℚ) (hn : |n| < 2 ^ 53) (h : (n : ℚ) ≤ x) :
    (n : ℚ) ≤ rnd x := by
  have := rnd_mono n x h
  rwa [rnd_intCast n hn] at this

theorem rnd_le_of_le_intCast (n : ℤ) (x : ℚ) (hn : |n| < 2 ^ 53) (h : x ≤ (n : ℚ)) :
    rnd x ≤ (n : ℚ) := by
  have := rnd_mono x n h
  rwa [rnd_intCast n hn] at this

theorem mathRound_mono (x y : ℚ) (h : x ≤ y) : mathRound x ≤ mathRound y := by
  unfold mathRound
  have : ⌊x + 1 / 2⌋ ≤ ⌊y + 1 / 2⌋ := Int.floor_le_floor (by linarith)
  exact_mod_cast this

theorem mathMin_mono (x y b : ℚ) (h : x ≤ y) : mathMin x b ≤ mathMin y b := by
  unfold mathMin
  split_ifs <;> linarith

/-- Rounding a non-negative number with `Math.round` gives a natural number. -/
theorem mathRound_nat (x : ℚ) (hx : 0 ≤ x) : ∃ n : ℕ, mathRound x = n := by
  have h : 0 ≤ ⌊x + 1 / 2⌋ := Int.floor_nonneg.mpr (by linarith)
  refine ⟨⌊x + 1 / 2⌋.toNat, ?_⟩
  unfold mathRound
  have e : ((⌊x + 1 / 2⌋.toNat : ℕ) : ℤ) = ⌊x + 1 / 2⌋ := Int.toNat_of_nonneg h
  exact_mod_cast e.symm

/-- Clamping the `Math.round` of a non-negative number at 100 gives an integer of `[0, 100]`. -/
theorem mathMin_mathRound_range (x : ℚ) (hx : 0 ≤ x) :
    ∃ n : ℤ, 0 ≤ n ∧ n ≤ 100 ∧ mathMin (mathRound x) 100 = n := by
  have h : 0 ≤ ⌊x + 1 / 2⌋ := Int.floor_nonneg.mpr (by linarith)
  unfold mathMin mathRound
  split_ifs with hle
  · exact ⟨⌊x + 1 / 2⌋, h, by exact_mod_cast hle, rfl⟩
  · exact ⟨100, by norm_num, by norm_num, by norm_num⟩

/-- The number read from an integer of at least 1 is at least 1. -/
theorem one_le_ofInt (n : ℤ) (h : 1 ≤ n) : 1 ≤ ofInt n := by
  have := le_rnd_of_intCast_le 1 (n : ℚ) (by norm_num) (by exact_mod_cast h)
  simpa [ofInt] using this

/-- The expression `cycles - 1` is non-negative when `cycles` is at least 1. -/
theorem cyclesMinusOne_nonneg (n : ℤ) (h : 1 ≤ n) : 0 ≤ fsub (ofInt n) 1 := by
  have := one_le_ofInt n h
  exact rnd_nonneg _ (by linarith)

theorem lit_nonneg (q : ℚ) (h : 0 ≤ q) : 0 ≤ lit q := rnd_nonneg q h

theorem fmul_nonneg (a b : ℚ) (ha : 0 ≤ a) (hb : 0 ≤ b) : 0 ≤ fmul a b :=
  rnd_nonneg _ (mul_nonneg ha hb)

theorem fadd_nonneg (a b : ℚ) (ha : 0 ≤ a) (hb : 0 ≤ b) : 0 ≤ fadd a b :=
  rnd_nonneg _ (add_nonneg ha hb)

/-- A cycle multiplier `1 + (cycles - 1) * k` is non-negative for a non-negative factor. -/
theorem cycleMultiplier_nonneg (n : ℤ) (h : 1 ≤ n) (k : ℚ) (hk : 0 ≤ k) :
    0 ≤ fadd 1 (fmul (fsub (ofInt n) 1) (lit k)) :=
  fadd_nonneg _ _ (by norm_num) (fmul_nonneg _ _ (cyclesMinusOne_nonneg n h) (lit_nonneg k hk))

/-- An integer of small magnitude is read exactly. -/
theorem ofInt_eq (n : ℤ) (h : |n| < 2 ^ 53) : ofInt n = n := rnd_intCast n h

/-! ## The lookup tables -/

theorem getBaseMetrics_cases (level : String) :
    getBaseMetrics level = ⟨500, 20, 5, 30⟩ ∨ getBaseMetrics level = ⟨1500, 50, 12, 60⟩ ∨
    getBaseMetrics level = ⟨4000, 100, 25, 85⟩ ∨ getBaseMetrics level = ⟨8000, 200, 50, 95⟩ := by
  unfold getBaseMetrics metrics metricsMedium
  split_ifs <;> simp

theorem baseFunctions_getD_cases (level : String) :
    (baseFunctions level).getD 8 = 3 ∨ (baseFunctions level).getD 8 = 8 ∨
    (baseFunctions level).getD 8 = 20 ∨ (baseFunctions level).getD 8 = 40 := by
  unfold baseFunctions
  split_ifs <;> simp

/-- At a level of the tables, `calculateObfuscationMetrics` returns metrics. -/
theorem calculateObfuscationMetrics_ok (c : Config) (h : validLevel c.level) :
    ∃ m, calculateObfuscationMetrics c = .ok m := by
  have hb : ∃ b, performanceBaseline c.level = some b := by
    unfold performanceBaseline
    rcases h with h | h | h | h <;> rw [h] <;> simp
  obtain ⟨b, hb⟩ := hb
  have hp : ∃ p, calculatePerformanceImpact c = .ok p := by
    unfold calculatePerformanceImpact
    rw [hb]
    exact ⟨_, rfl⟩
  obtain ⟨p, hp⟩ := hp
  have hr : ∃ r, getRecommendedSettings c (calculateComplexityScore c) = .ok r := by
    unfold getRecommendedSettings
    rw [hp]
    simp only
    split_ifs <;> exact ⟨_, rfl⟩
  obtain ⟨r, hr⟩ := hr
  unfold calculateObfuscationMetrics
  rw [hp]
  simp only [hr]
  exact ⟨_, rfl⟩

/-! ## Scores stay in range -/

theorem complexityScore_arg_nonneg (c : Config) (hc : 1 ≤ c.cycles)
    (hb0 : 0 ≤ c.bogusPercentage) (hb1 : c.bogusPercentage ≤ 100) :
    ∃ s : ℚ, 0 ≤ s ∧ calculateComplexityScore c = mathMin (mathRound s) 100 := by
  have hbase : (30 : ℚ) ≤ (getBaseMetrics c.level).baseComplexity := by
    rcases getBaseMetrics_cases c.level with h | h | h | h <;> rw [h] <;> norm_num
  have ht1 : 0 ≤ fmul (fsub (ofInt c.cycles) 1) 8 :=
    fmul_nonneg _ _ (cyclesMinusOne_nonneg _ hc) (by norm_num)
  have hs1 : (30 : ℚ) ≤ fadd (getBaseMetrics c.level).baseComplexity
      (fmul (fsub (ofInt c.cycles) 1) 8) := by
    have := le_rnd_of_intCast_le 30 ((getBaseMetrics c.level).baseComplexity +
      fmul (fsub (ofInt c.cycles) 1) 8) (by norm_num) (by push_cast; linarith)
    simpa [fadd] using this
  have hb : ofInt c.bogusPercentage = c.bogusPercentage :=
    ofInt_eq _ (by rw [abs_lt]; constructor <;> omega)
  have hd : fsub (ofInt c.bogusPercentage) 15 = ((c.bogusPercentage - 15 : ℤ) : ℚ) := by
    unfold fsub
    rw [hb]
    have := rnd_intCast (c.bogusPercentage - 15) (by rw [abs_lt]; constructor <;> omega)
    push_cast at this ⊢
    exact this
  have hk0 : 0 ≤ lit (8 / 10) := lit_nonneg _ (by norm_num)
  have hk1 : lit (8 / 10) ≤ 1 := by
    have := rnd_le_of_le_intCast 1 (8 / 10) (by norm_num) (by norm_num)
    simpa [lit] using this
  have hd0 : (-15 : ℚ) ≤ ((c.bogusPercentage - 15 : ℤ) : ℚ) := by
    have : (-15 : ℤ) ≤ c.bogusPercentage - 15 := by omega
    exact_mod_cast this
  have ht2 : (-15 : ℚ) ≤ fmul (fsub (ofInt c.bogusPercentage) 15) (lit (8 / 10)) := by
    rw [hd]
    have hprod : (-15 : ℚ) ≤ ((c.bogusPercentage - 15 : ℤ) : ℚ) * lit (8 / 10) := by
      rcases le_total 0 ((c.bogusPercentage - 15 : ℤ) : ℚ) with hp | hn
      · have := mul_nonneg hp hk0
        linarith
      · nlinarith
    have := le_rnd_of_intCast_le (-15) _ (by norm_num) (by push_cast; exact hprod)
    simpa [fmul] using this
  have hs2 : (15 : ℚ) ≤ fadd (fadd (getBaseMetrics c.level).baseComplexity
      (fmul (fsub (ofInt c.cycles) 1) 8))
      (fmul (fsub (ofInt c.bogusPercentage) 15) (lit (8 / 10))) := by
    have := le_rnd_of_intCast_le 15 (fadd (getBaseMetrics c.level).baseComplexity
      (fmul (fsub (ofInt c.cycles) 1) 8) +
      fmul (fsub (ofInt c.bogusPercentage) 15) (lit (8 / 10))) (by norm_num)
      (by push_cast; linarith)
    simpa [fadd] using this
  refine ⟨_, ?_, rfl⟩
  have step : ∀ (b : Bool) (x k : ℚ), 0 ≤ x → 0 ≤ k → 0 ≤ (if b = true then fadd x k else x) := by
    intro b x k hx hk
    split_ifs
    · exact fadd_nonneg _ _ hx hk
    · exact hx
  apply step _ _ _ _ (by norm_num)
  apply step _ _ _ _ (by norm_num)
  linarith

theorem securityScore_arg_nonneg (c : Config) (x : ℚ) (hx : 0 ≤ x) :
    ∃ s : ℚ, 0 ≤ s ∧ calculateSecurityScore c x = mathMin (mathRound s) 100 := by
  refine ⟨_, ?_, rfl⟩
  have h0 : 0 ≤ fmul x (lit (7 / 10)) := fmul_nonneg _ _ hx (lit_nonneg _ (by norm_num))
  have step : ∀ (p : Prop) [Decidable p] (y k : ℚ), 0 ≤ y → 0 ≤ k →
      0 ≤ (if p then fadd y k else y) := by
    intro p _ y k hy hk
    split_ifs
    · exact fadd_nonneg _ _ hy hk
    · exact hy
  apply step _ _ _ _ (by norm_num)
  apply step _ _ _ _ (by norm_num)
  apply step _ _ _ _ (by norm_num)
  exact h0

/-- C2: for every valid configuration, the complexity score is an integer of `[0, 100]`, and so
is the security score computed from that complexity score. -/
theorem scores_in_range (c : Config) (hv : validConfig c) :
    (∃ n : ℤ, 0 ≤ n ∧ n ≤ 100 ∧ calculateComplexityScore c = n) ∧
    (∃ n : ℤ, 0 ≤ n ∧ n ≤ 100 ∧
      calculateSecurityScore c (calculateComplexityScore c) = n) := by
  obtain ⟨_, hc, hb0, hb1⟩ := hv
  obtain ⟨s, hs, hes⟩ := complexityScore_arg_nonneg c hc hb0 hb1
  obtain ⟨n, hn0, hn1, hn⟩ := mathMin_mathRound_range s hs
  have hcn : calculateComplexityScore c = n := by rw [hes, hn]
  refine ⟨⟨n, hn0, hn1, hcn⟩, ?_⟩
  obtain ⟨t, ht, het⟩ := securityScore_arg_nonneg c (calculateComplexityScore c)
    (by rw [hcn]; exact_mod_cast hn0)
  obtain ⟨m, hm0, hm1, hm⟩ := mathMin_mathRound_range t ht
  exact ⟨m, hm0, hm1, by rw [het, hm]⟩

/-- C2 at the reference configuration: medium, one cycle, 15 percent, both features. -/
theorem scores_in_range_witness :
    validConfig ⟨"medium", 1, 15, true, true⟩ ∧
    ((∃ n : ℤ, 0 ≤ n ∧ n ≤ 100 ∧ calculateComplexityScore ⟨"medium", 1, 15, true, true⟩ = n) ∧
    (∃ n : ℤ, 0 ≤ n ∧ n ≤ 100 ∧
      calculateSecurityScore ⟨"medium", 1, 15, true, true⟩
        (calculateComplexityScore ⟨"medium", 1, 15, true, true⟩) = n)) :=
  ⟨by decide, scores_in_range ⟨"medium", 1, 15, true, true⟩ (by decide)⟩

/-! ## Monotonic coupling of the two scores -/

/-- C6: the security score is non-decreasing in its complexity argument. -/
theorem calculateSecurityScore_mono (c : Config) (c1 c2 : ℚ) (h : c1 ≤ c2) :
    calculateSecurityScore c c1 ≤ calculateSecurityScore c c2 := by
  have hk : 0 ≤ lit (7 / 10) := lit_nonneg _ (by norm_num)
  have h0 : fmul c1 (lit (7 / 10)) ≤ fmul c2 (lit (7 / 10)) :=
    rnd_mono _ _ (mul_le_mul_of_nonneg_right h hk)
  have step : ∀ (p : Prop) [Decidable p] (y z k : ℚ), y ≤ z →
      (if p then fadd y k else y) ≤ (if p then fadd z k else z) := by
    intro p _ y z k hyz
    split_ifs
    · exact rnd_mono _ _ (by linarith)
    · exact hyz
  unfold calculateSecurityScore
  simp only
  apply mathMin_mono
  apply mathRound_mono
  apply step
  apply step
  apply step
  exact h0

/-- C6 at the reference configuration, for the complexity scores 50 and 80. -/
theorem calculateSecurityScore_mono_witness :
    (50 : ℚ) ≤ 80 ∧
    calculateSecurityScore ⟨"medium", 1, 15, true, true⟩ 50 ≤
      calculateSecurityScore ⟨"medium", 1, 15, true, true⟩ 80 :=
  ⟨by norm_num, calculateSecurityScore_mono ⟨"medium", 1, 15, true, true⟩ 50 80 (by norm_num)⟩

/-! ## Derived counts are natural numbers -/

/-- In the arithmetic without overflow, each of the four derived counts of a valid
configuration is a non-negative integer. -/
theorem counts_nonneg_integers (c : Config) (hv : validConfig c) :
    (∃ n : ℕ, calculateBogusInstructions c = n) ∧
    (∃ n : ℕ, calculateEncryptedStrings c = n) ∧
    (∃ n : ℕ, calculateFakeLooks c = n) ∧
    (∃ n : ℕ, calculateControlFlowFunctions c = n) := by
  obtain ⟨_, hc, hb0, hb1⟩ := hv
  have hbase := getBaseMetrics_cases c.level
  have hB : 0 ≤ (getBaseMetrics c.level).baseBogus := by
    rcases hbase with h | h | h | h <;> rw [h] <;> norm_num
  have hS : 0 ≤ (getBaseMetrics c.level).baseStrings := by
    rcases hbase with h | h | h | h <;> rw [h] <;> norm_num
  have hF : 0 ≤ (getBaseMetrics c.level).baseFakes := by
    rcases hbase with h | h | h | h <;> rw [h] <;> norm_num
  have hC : 0 ≤ (baseFunctions c.level).getD 8 := by
    rcases baseFunctions_getD_cases c.level with h | h | h | h <;> rw [h] <;> norm_num
  have hb : 0 ≤ ofInt c.bogusPercentage :=
    rnd_nonneg _ (by exact_mod_cast hb0)
  refine ⟨?_, ?_, ?_, ?_⟩
  · apply mathRound_nat
    apply fmul_nonneg
    · exact fmul_nonneg _ _ hB (rnd_nonneg _ (div_nonneg hb (by norm_num)))
    · exact cycleMultiplier_nonneg _ hc _ (by norm_num)
  · unfold calculateEncryptedStrings
    split_ifs
    · exact ⟨0, by norm_num⟩
    · apply mathRound_nat
      exact fmul_nonneg _ _ hS (cycleMultiplier_nonneg _ hc _ (by norm_num))
  · unfold calculateFakeLooks
    split_ifs
    · exact ⟨0, by norm_num⟩
    · apply mathRound_nat
      exact fmul_nonneg _ _ hF (cycleMultiplier_nonneg _ hc _ (by norm_num))
  · apply mathRound_nat
    exact fmul_nonneg _ _ hC (cycleMultiplier_nonneg _ hc _ (by norm_num))

/-! ## The unrecognized level -/

/-- C1: at a level that no table has and that names no inherited member, `getBaseMetrics`
and `calculateControlFlowFunctions` use the medium row, but `performanceBaseline` has no
row and no fallback, so `calculatePerformanceImpact` and with it
`calculateObfuscationMetrics` raise a `TypeError`, while the same configuration at level
medium gets metrics. -/
theorem unrecognized_level_raises (c : Config) (h : ¬ validLevel c.level)
    (hi : c.level ∉ inheritedKeys) :
    getBaseMetrics c.level = getBaseMetrics "medium" ∧
    calculateControlFlowFunctions c = calculateControlFlowFunctions { c with level := "medium" } ∧
    calculatePerformanceImpact c = .error .typeError ∧
    calculateObfuscationMetrics c = .error .typeError ∧
    ∃ m, calculateObfuscationMetrics { c with level := "medium" } = .ok m := by
  unfold validLevel at h
  push_neg at h
  obtain ⟨h1, h2, h3, h4⟩ := h
  have hp : calculatePerformanceImpact c = .error .typeError := by
    unfold calculatePerformanceImpact performanceBaseline
    simp [h1, h2, h3, h4]
  refine ⟨?_, ?_, hp, ?_, ?_⟩
  · unfold getBaseMetrics metrics metricsMedium
    simp [h1, h2, h3, h4]
  · unfold calculateControlFlowFunctions baseFunctions
    simp [h1, h2, h3, h4]
  · unfold calculateObfuscationMetrics
    rw [hp]
  · exact calculateObfuscationMetrics_ok _ (Or.inr (Or.inl rfl))

/-- C1 at the level `extreme`: the method raises, and at level medium it returns the
metrics of the reference configuration. -/
theorem unrecognized_level_raises_witness :
    ¬ validLevel "extreme" ∧ "extreme" ∉ inheritedKeys ∧
    calculatePerformanceImpact ⟨"extreme", 1, 15, true, true⟩ = .error .typeError ∧
    calculateObfuscationMetrics ⟨"extreme", 1, 15, true, true⟩ = .error .typeError ∧
    calculateObfuscationMetrics ⟨"medium", 1, 15, true, true⟩ =
      .ok ⟨1500, 50, 12, 8, 80, 71, ⟨⟨202⟩, ⟨80⟩, ⟨120⟩⟩, ⟨none, none⟩⟩ :=
  ⟨by decide, by decide,
    (unrecognized_level_raises ⟨"extreme", 1, 15, true, true⟩ (by decide) (by decide)).2.2.1,
    (unrecognized_level_raises ⟨"extreme", 1, 15, true, true⟩ (by decide) (by decide)).2.2.2.1,
    by decide!⟩

/-! ## The reference example -/

/-- C9: for medium, one cycle, 15 percent and both features, `calculateObfuscationMetrics`
returns metrics whose complexity score is 80 and whose security score is 71. -/
theorem reference_scores :
    ∃ m : DerivedMetrics,
      calculateObfuscationMetrics ⟨"medium", 1, 15, true, true⟩ = .ok m ∧
      m.complexityScore = 80 ∧ m.securityScore = 71 :=
  ⟨⟨1500, 50, 12, 8, 80, 71, ⟨⟨202⟩, ⟨80⟩, ⟨120⟩⟩, ⟨none, none⟩⟩, by decide!, rfl, rfl⟩

/-! ## The advisory rules -/

/-- Reading a one-decimal string as a number does not move it across 20. -/
theorem parseFloat_gt_twenty (d : Decimal1) : parseFloat d > 20 ↔ d.value > 20 := by
  unfold parseFloat Decimal1.value
  constructor
  · intro h
    by_contra hn
    push_neg at hn
    have := rnd_le_of_le_intCast 20 _ (by norm_num) (by push_cast; exact hn)
    push_cast at this
    linarith
  · intro h
    have h1 : (200 : ℚ) < d.tenths := by linarith
    have h2 : (201 : ℤ) ≤ d.tenths := by
      have : (200 : ℤ) < d.tenths := by exact_mod_cast h1
      omega
    have h3 : (201 : ℚ) / 10 ≤ (d.tenths : ℚ) / 10 := by
      have : (201 : ℚ) ≤ d.tenths := by exact_mod_cast h2
      linarith
    have h4 := rnd_mono _ _ h3
    have h5 : (20 : ℚ) < rnd (201 / 10) := by decide!
    linarith

/-- Reading an integer as a number does not move it across 30. -/
theorem ofInt_gt_thirty (n : ℤ) : ofInt n > 30 ↔ n > 30 := by
  unfold ofInt
  constructor
  · intro h
    by_contra hn
    push_neg at hn
    have := rnd_le_of_le_intCast 30 (n : ℚ) (by norm_num) (by exact_mod_cast hn)
    push_cast at this
    linarith
  · intro h
    have h2 : (31 : ℤ) ≤ n := by omega
    have := le_rnd_of_intCast_le 31 (n : ℚ) (by norm_num) (by exact_mod_cast h2)
    push_cast at this
    linarith

/-- C5: `analyzeConfiguration` returns the recommendations of the rules that apply, in the
order warning, info, success, error; each of the four is in the result exactly when its
condition holds, and the result is empty exactly when no condition holds. -/
theorem analyzeConfiguration_rules (c : Config) (m : DerivedMetrics) :
    analyzeConfiguration c m = applicableRecommendations c m ∧
    (analyzeConfiguration c m).Sublist
      [warningRecommendation, infoRecommendation, successRecommendation,
        errorRecommendation] ∧
    (warningRecommendation ∈ analyzeConfiguration c m ↔
      (m.securityScore > 90 ∧ m.performanceImpact.time.value > 20)) ∧
    (infoRecommendation ∈ analyzeConfiguration c m ↔ c.bogusPercentage > 30) ∧
    (successRecommendation ∈ analyzeConfiguration c m ↔
      (c.level = "low" ∧ c.stringEncryption = true)) ∧
    (errorRecommendation ∈ analyzeConfiguration c m ↔ m.securityScore < 60) ∧
    (analyzeConfiguration c m = [] ↔
      ¬ (m.securityScore > 90 ∧ m.performanceImpact.time.value > 20) ∧
      ¬ c.bogusPercentage > 30 ∧ ¬ (c.level = "low" ∧ c.stringEncryption = true) ∧
      ¬ m.securityScore < 60) := by
  have hwi : warningRecommendation ≠ infoRecommendation := by decide
  have hws : warningRecommendation ≠ successRecommendation := by decide
  have hwe : warningRecommendation ≠ errorRecommendation := by decide
  have his : infoRecommendation ≠ successRecommendation := by decide
  have hie : infoRecommendation ≠ errorRecommendation := by decide
  have hse : successRecommendation ≠ errorRecommendation := by decide
  unfold analyzeConfiguration applicableRecommendations rules
  simp only [parseFloat_gt_twenty, ofInt_gt_thirty]
  by_cases h1 : m.securityScore > 90 ∧ m.performanceImpact.time.value > 20 <;>
  by_cases h2 : c.bogusPercentage > 30 <;>
  by_cases h3 : (c.level = "low" ∧ c.stringEncryption = true) <;>
  by_cases h4 : m.securityScore < 60 <;>
  simp [h1, h2, h3, h4, hwi, hws, hwe, his, hie, hse, hwi.symm, hws.symm, hwe.symm,
    his.symm, hie.symm, hse.symm]

/-! ## The search for a configuration -/

theorem optimalStep_eq (ts mp : ℚ) (level : String) (h : validLevel level) (cycles : ℤ) :
    optimalStep ts mp level cycles = .ok (found ts mp (testConfig level cycles)) := by
  obtain ⟨m, hm⟩ := calculateObfuscationMetrics_ok (testConfig level cycles) h
  unfold optimalStep found
  rw [hm]
  simp only [ge_iff_le]
  split_ifs <;> rfl

theorem optimalCycles_eq (ts mp : ℚ) (level : String) (h : validLevel level) (cs : List ℤ) :
    optimalCycles ts mp level cs =
      .ok (cs.findSome? (fun cycles => found ts mp (testConfig level cycles))) := by
  induction cs with
  | nil => rfl
  | cons cycles rest ih =>
    unfold optimalCycles
    rw [optimalStep_eq ts mp level h cycles, List.findSome?_cons]
    cases hf : found ts mp (testConfig level cycles) with
    | none => simpa using ih
    | some r => rfl

theorem optimalLevels_eq_of (ts mp : ℚ) (F : String → Option OptimalSettings)
    (ls : List String)
    (h : ∀ l ∈ ls, optimalCycles ts mp l [1, 2, 3, 4, 5] = .ok (F l)) :
    optimalLevels ts mp ls = .ok (ls.findSome? F) := by
  induction ls with
  | nil => rfl
  | cons level rest ih =>
    have hl := h level (List.mem_cons_self _ _)
    have hrest : ∀ l ∈ rest, optimalCycles ts mp l [1, 2, 3, 4, 5] = .ok (F l) :=
      fun l hl2 => h l (List.mem_cons_of_mem _ hl2)
    unfold optimalLevels
    rw [hl, List.findSome?_cons]
    cases hf : F level with
    | none => simpa using ih hrest
    | some r => rfl

theorem optimalLevels_eq (ts mp : ℚ) (ls : List String) (h : ∀ l ∈ ls, validLevel l) :
    optimalLevels ts mp ls =
      .ok (ls.findSome? (fun level =>
        [1, 2, 3, 4, 5].findSome? (fun cycles => found ts mp (testConfig level cycles)))) :=
  optimalLevels_eq_of ts mp _ ls (fun l hl => optimalCycles_eq ts mp l (h l hl) _)

theorem findSome_flatMap_eq {α β γ : Type} (l : List α) (g : α → List β) (f : β → Option γ) :
    (l.flatMap g).findSome? f = l.findSome? (fun a => (g a).findSome? f) := by
  induction l with
  | nil => rfl
  | cons a rest ih =>
    rw [List.flatMap_cons, List.findSome?_append, List.findSome?_cons, ih]
    cases (g a).findSome? f <;> rfl

/-- The two nested loops visit the candidates in order and stop at the first one found. -/
theorem calculateOptimalSettings_eq (ts mp : ℚ) :
    calculateOptimalSettings ts mp = .ok (candidates.findSome? (found ts mp)) := by
  unfold calculateOptimalSettings
  rw [optimalLevels_eq ts mp levels (by intro l hl; revert l; decide)]
  unfold candidates
  rw [findSome_flatMap_eq]
  simp only [List.findSome?_map]
  rfl

theorem found_eq_some_iff (ts mp : ℚ) (c : Config) (r : OptimalSettings) :
    found ts mp c = some r ↔
      ∃ m, calculateObfuscationMetrics c = .ok m ∧ ts ≤ m.securityScore ∧
        parseFloat m.performanceImpact.time ≤ mp ∧ r = reportOf c m := by
  unfold found
  cases hm : calculateObfuscationMetrics c with
  | error e => simp
  | ok m =>
    simp only
    split_ifs with hc
    · constructor
      · intro h
        exact ⟨m, rfl, hc.1, hc.2, (Option.some.inj h).symm⟩
      · rintro ⟨m2, h2, _, _, h3⟩
        cases h2
        rw [h3]
    · constructor
      · intro h
        exact absurd h (by simp)
      · rintro ⟨m2, h2, h3, h4, _⟩
        cases h2
        exact absurd ⟨h3, h4⟩ hc

theorem found_eq_none_iff (ts mp : ℚ) (c : Config) :
    found ts mp c = none ↔ ¬ meetsTargets ts mp c := by
  unfold meetsTargets
  constructor
  · rintro h ⟨m, hm, h1, h2⟩
    have := (found_eq_some_iff ts mp c (reportOf c m)).mpr ⟨m, hm, h1, h2, rfl⟩
    rw [h] at this
    exact absurd this (by simp)
  · intro h
    cases hf : found ts mp c with
    | none => rfl
    | some r =>
      obtain ⟨m, hm, h1, h2, _⟩ := (found_eq_some_iff ts mp c r).mp hf
      exact absurd ⟨m, hm, h1, h2⟩ h

/-- C3: when `calculateOptimalSettings` returns a configuration, the candidates split into
those before it, it, and those after it; it meets both targets, its report carries its
security score and its time percentage, and no candidate before it meets both targets. -/
theorem calculateOptimalSettings_first_match (ts mp : ℚ) (r : OptimalSettings)
    (h : calculateOptimalSettings ts mp = .ok (some r)) :
    ∃ before c after m, candidates = before ++ c :: after ∧
      calculateObfuscationMetrics c = .ok m ∧ r = reportOf c m ∧
      ts ≤ m.securityScore ∧ parseFloat m.performanceImpact.time ≤ mp ∧
      ∀ x ∈ before, ¬ meetsTargets ts mp x := by
  rw [calculateOptimalSettings_eq] at h
  have h2 : candidates.findSome? (found ts mp) = some r := by
    injection h
  obtain ⟨before, c, after, hsplit, hc, hbefore⟩ := List.findSome?_eq_some_iff.mp h2
  obtain ⟨m, hm, h1, h3, h4⟩ := (found_eq_some_iff ts mp c r).mp hc
  exact ⟨before, c, after, m, hsplit, hm, h4, h1, h3,
    fun x hx => (found_eq_none_iff ts mp x).mp (hbefore x hx)⟩

/-- C3 at the defaults 80 and 15: the search returns high with one cycle, security score 95
and time percentage 15, and the first-match property holds for it. -/
theorem calculateOptimalSettings_first_match_witness :
    calculateOptimalSettings 80 15 = .ok (some ⟨"high", 1, 15, true, true, 95, 15⟩) ∧
    ∃ before c after m, candidates = before ++ c :: after ∧
      calculateObfuscationMetrics c = .ok m ∧
      (⟨"high", 1, 15, true, true, 95, 15⟩ : OptimalSettings) = reportOf c m ∧
      (80 : ℚ) ≤ m.securityScore ∧ parseFloat m.performanceImpact.time ≤ 15 ∧
      ∀ x ∈ before, ¬ meetsTargets 80 15 x :=
  ⟨by decide!, calculateOptimalSettings_first_match 80 15 ⟨"high", 1, 15, true, true, 95, 15⟩
    (by decide!)⟩

/-- C4: `calculateOptimalSettings` raises no error, and it returns `null` exactly when none
of the twenty candidates meets both targets. -/
theorem calculateOptimalSettings_null_iff (ts mp : ℚ) :
    (∃ r, calculateOptimalSettings ts mp = .ok r) ∧
    candidates.length = 20 ∧
    (calculateOptimalSettings ts mp = .ok none ↔
      ∀ c ∈ candidates, ¬ meetsTargets ts mp c) := by
  rw [calculateOptimalSettings_eq]
  refine ⟨⟨_, rfl⟩, rfl, ?_⟩
  constructor
  · intro h c hc
    have h2 : candidates.findSome? (found ts mp) = none := by
      injection h
    exact (found_eq_none_iff ts mp c).mp (List.findSome?_eq_none_iff.mp h2 c hc)
  · intro h
    have : candidates.findSome? (found ts mp) = none :=
      List.findSome?_eq_none_iff.mpr (fun c hc => (found_eq_none_iff ts mp c).mpr (h c hc))
    rw [this]

/-! ## The command line -/

theorem digitChar_toNat (d : ℕ) (h : d < 10) : (Char.ofNat (48 + d)).toNat - 48 = d := by
  interval_cases d <;> rfl

theorem digitChar_isDigit (d : ℕ) (h : d < 10) : (Char.ofNat (48 + d)).isDigit = true := by
  interval_cases d <;> rfl

theorem map_digitChar_inj (l₁ l₂ : List ℕ) (h₁ : ∀ d ∈ l₁, d < 10) (h₂ : ∀ d ∈ l₂, d < 10)
    (h : l₁.map (fun d => Char.ofNat (48 + d)) = l₂.map (fun d => Char.ofNat (48 + d))) :
    l₁ = l₂ := by
  have key : ∀ l : List ℕ, (∀ d ∈ l, d < 10) →
      (l.map (fun d => Char.ofNat (48 + d))).map (fun c => c.toNat - 48) = l := by
    intro l hl
    induction l with
    | nil => rfl
    | cons d t ih =>
      simp only [List.map_cons]
      rw [digitChar_toNat d (hl d (List.mem_cons_self _ _)),
        ih (fun x hx => hl x (List.mem_cons_of_mem _ hx))]
  rw [← key l₁ h₁, ← key l₂ h₂, h]

theorem digitsFuel_eq (fuel n : ℕ) (h : n ≤ fuel) : digitsFuel fuel n = Nat.digits 10 n := by
  induction fuel generalizing n with
  | zero =>
    have : n = 0 := by omega
    subst this
    simp [digitsFuel]
  | succ fuel ih =>
    unfold digitsFuel
    split_ifs with h0
    · subst h0; simp
    · rw [Nat.digits_def' (by norm_num) (Nat.pos_of_ne_zero h0), ih (n / 10) (by omega)]

theorem natDigits_eq (n : ℕ) :
    natDigits n = if n = 0 then ['0']
      else (Nat.digits 10 n).reverse.map (fun d => Char.ofNat (48 + d)) := by
  unfold natDigits
  rw [digitsFuel_eq n n le_rfl]

theorem decimalLength_eq (n : ℕ) : decimalLength n = (Nat.digits 10 n).length := by
  unfold decimalLength
  rw [digitsFuel_eq n n le_rfl]

theorem natDigits_isDigit (n : ℕ) : ∀ c ∈ natDigits n, c.isDigit = true := by
  intro c hc
  rw [natDigits_eq] at hc
  split_ifs at hc with h0
  · simp at hc
    rw [hc]; rfl
  · simp only [List.mem_map, List.mem_reverse] at hc
    obtain ⟨d, hd, rfl⟩ := hc
    exact digitChar_isDigit d (Nat.digits_lt_base (by norm_num) hd)

theorem natDigits_injective (n m : ℕ) (h : natDigits n = natDigits m) : n = m := by
  have hlt : ∀ k : ℕ, ∀ d ∈ (Nat.digits 10 k).reverse, d < 10 := by
    intro k d hd
    exact Nat.digits_lt_base (by norm_num) (List.mem_reverse.mp hd)
  have zero_ne : ∀ k : ℕ, k ≠ 0 → natDigits 0 ≠ natDigits k := by
    intro k hk hzk
    rw [natDigits_eq, natDigits_eq, if_pos rfl, if_neg hk] at hzk
    have e : ([0] : List ℕ).map (fun d => Char.ofNat (48 + d)) =
        (Nat.digits 10 k).reverse.map (fun d => Char.ofNat (48 + d)) := by
      simpa using hzk
    have e2 := map_digitChar_inj [0] _ (by simp) (hlt k) e
    have e3 : Nat.digits 10 k = [0] := by
      have := congrArg List.reverse e2
      simpa using this.symm
    have e4 := Nat.getLast_digit_ne_zero 10 hk
    simp [e3] at e4
  by_cases hn : n = 0
  · by_cases hm : m = 0
    · rw [hn, hm]
    · subst hn
      exact absurd h (zero_ne m hm)
  · by_cases hm : m = 0
    · subst hm
      exact absurd h.symm (zero_ne n hn)
    · rw [natDigits_eq, natDigits_eq, if_neg hn, if_neg hm] at h
      have e2 := map_digitChar_inj _ _ (hlt n) (hlt m) h
      exact Nat.digits_inj_iff.mp (List.reverse_injective e2)

/-- Two runs of characters of one class, each followed by nothing or by a text that starts
with a character outside the class, are equal when their concatenations are equal. -/
theorem class_split (P : Char → Bool) (l₁ l₂ r₁ r₂ : List Char)
    (h₁ : ∀ c ∈ l₁, P c = true) (h₂ : ∀ c ∈ l₂, P c = true)
    (hr₁ : ∀ c ∈ r₁.head?, P c = false) (hr₂ : ∀ c ∈ r₂.head?, P c = false)
    (h : l₁ ++ r₁ = l₂ ++ r₂) : l₁ = l₂ ∧ r₁ = r₂ := by
  induction l₁ generalizing l₂ with
  | nil =>
    cases l₂ with
    | nil => exact ⟨rfl, by simpa using h⟩
    | cons b t =>
      exfalso
      simp only [List.nil_append] at h
      have hb := h₂ b (List.mem_cons_self _ _)
      have := hr₁ b (by rw [h]; simp)
      rw [hb] at this
      exact absurd this (by decide)
  | cons a s ih =>
    cases l₂ with
    | nil =>
      exfalso
      simp only [List.nil_append] at h
      have ha := h₁ a (List.mem_cons_self _ _)
      have := hr₂ a (by rw [← h]; simp)
      rw [ha] at this
      exact absurd this (by decide)
    | cons b t =>
      simp only [List.cons_append, List.cons.injEq] at h
      obtain ⟨hab, hst⟩ := h
      obtain ⟨e1, e2⟩ := ih t (fun c hc => h₁ c (List.mem_cons_of_mem _ hc))
        (fun c hc => h₂ c (List.mem_cons_of_mem _ hc)) hst
      exact ⟨by rw [hab, e1], e2⟩

/-- The decimal that is printed for a Number denotes it. -/
theorem shortestDecimal_roundTrips (x : ℕ) (hx : rnd (x : ℚ) = x) :
    rnd (((shortestDecimal x).1 * 10 ^ (shortestDecimal x).2 : ℕ) : ℚ) = (x : ℚ) := by
  unfold shortestDecimal
  cases h : (List.range 17).findSome? (fun i => shortestOfLength x (i + 1)) with
  | none =>
    simp only [Option.getD_none, pow_zero, mul_one]
    exact hx
  | some p =>
    simp only [Option.getD_some]
    obtain ⟨i, _, hi⟩ := List.exists_of_findSome?_eq_some h
    unfold shortestOfLength at hi
    have hm := List.argmin_mem hi
    rw [List.mem_filter] at hm
    exact of_decide_eq_true hm.2

theorem mem_mantissaText (l : List Char) (c : Char) (h : c ∈ mantissaText l) :
    c ∈ l ∨ c = '.' := by
  cases l with
  | nil => simp [mantissaText] at h
  | cons d rest =>
    simp only [mantissaText] at h
    split_ifs at h with hr
    · simp at h; left; rw [h]; simp
    · simp at h
      rcases h with h | h | h
      · left; rw [h]; simp
      · right; exact h
      · left; simp [h]

theorem mantissaText_injective (l₁ l₂ : List Char) (h₁ : ∀ c ∈ l₁, c.isDigit = true)
    (h₂ : ∀ c ∈ l₂, c.isDigit = true) (h : mantissaText l₁ = mantissaText l₂) : l₁ = l₂ := by
  cases l₁ with
  | nil =>
    cases l₂ with
    | nil => rfl
    | cons b t => simp [mantissaText] at h
  | cons a s =>
    cases l₂ with
    | nil => simp [mantissaText] at h
    | cons b t =>
      simp only [mantissaText, List.cons.injEq] at h
      obtain ⟨hab, hst⟩ := h
      by_cases hs : s = [] <;> by_cases ht : t = [] <;> simp [hs, ht] at hst
      · simp [hab, hs, ht]
      · simp [hab, hst]

/-- The characters a number is written with. -/
theorem numberText_chars (x : ℕ) :
    ∀ c ∈ numberText x, (c.isDigit || c == '.' || c == 'e' || c == '+') = true := by
  intro c hc
  unfold numberText at hc
  split_ifs at hc
  · simp [natDigits_isDigit _ c hc]
  · rw [List.mem_append] at hc
    rcases hc with hc | hc
    · rcases mem_mantissaText _ c hc with h | h
      · simp [natDigits_isDigit _ c h]
      · rw [h]; rfl
    · simp only [List.mem_cons] at hc
      rcases hc with h | h | h
      · rw [h]; rfl
      · rw [h]; rfl
      · simp [natDigits_isDigit _ c h]

/-- Two Numbers that are written the same are equal. -/
theorem numberText_injective (x y : ℕ) (hx : rnd (x : ℚ) = x) (hy : rnd (y : ℚ) = y)
    (h : numberText x = numberText y) : x = y := by
  have rx := shortestDecimal_roundTrips x hx
  have ry := shortestDecimal_roundTrips y hy
  have key : (shortestDecimal x).1 * 10 ^ (shortestDecimal x).2 =
      (shortestDecimal y).1 * 10 ^ (shortestDecimal y).2 → x = y := by
    intro e
    rw [e, ry] at rx
    exact (Nat.cast_injective rx).symm
  have notE : ∀ (n : ℕ) (l r : List Char), natDigits n ≠ l ++ ('e' :: r) := by
    intro n l r e
    have := natDigits_isDigit n 'e' (by rw [e]; simp)
    exact absurd this (by decide)
  unfold numberText at h
  split_ifs at h with h1 h2 h2
  · exact key (natDigits_injective _ _ h)
  · exact absurd h (notE _ _ _)
  · exact absurd h.symm (notE _ _ _)
  · have hm : ∀ n : ℕ, ∀ c ∈ mantissaText (natDigits n), (c.isDigit || c == '.') = true := by
      intro n c hc
      rcases mem_mantissaText _ c hc with h | h
      · simp [natDigits_isDigit _ c h]
      · rw [h]; rfl
    have hr : ∀ t : List Char, ∀ c ∈ ('e' :: t).head?, (c.isDigit || c == '.') = false := by
      intro t c hc
      simp only [List.head?_cons, Option.mem_def, Option.some.injEq] at hc
      rw [← hc]; rfl
    obtain ⟨e1, e2⟩ := class_split (fun c => c.isDigit || c == '.') _ _ _ _ (hm _) (hm _)
      (hr _) (hr _) h
    have e3 := natDigits_injective _ _
      (mantissaText_injective _ _ (natDigits_isDigit _) (natDigits_isDigit _) e1)
    simp only [List.cons.injEq, true_and] at e2
    have e4 := natDigits_injective _ _ e2
    apply key
    rw [e3] at e4 h1 ⊢
    have : (shortestDecimal x).2 = (shortestDecimal y).2 := by omega
    rw [this]

theorem flagsText_injective (s₁ f₁ s₂ f₂ : Bool) (h : flagsText s₁ f₁ = flagsText s₂ f₂) :
    s₁ = s₂ ∧ f₁ = f₂ := by
  revert h
  cases s₁ <;> cases f₁ <;> cases s₂ <;> cases f₂ <;> decide

theorem flagsText_head (s f : Bool) :
    ∀ c ∈ (flagsText s f).head?, (c.isDigit || c == '.' || c == 'e' || c == '+') = false := by
  cases s <;> cases f <;> decide

theorem separator_head (t : List Char) :
    ∀ c ∈ (" -b ".data ++ t).head?,
      (c.isDigit || c == '.' || c == 'e' || c == '+') = false := by
  intro c hc
  have e : " -b ".data ++ t = ' ' :: ("-b ".data ++ t) := rfl
  rw [e] at hc
  simp only [List.head?_cons, Option.mem_def, Option.some.injEq] at hc
  rw [← hc]
  rfl

theorem overflowBound_pos : (0 : ℚ) < overflowBound := by
  unfold overflowBound; positivity

theorem numberToString_of_isNumber (n : ℤ) (h : 0 ≤ n) (hn : isNumber n) :
    (numberToString n).data = numberText n.toNat := by
  obtain ⟨h1, h2⟩ := hn
  have h0 : (0 : ℚ) ≤ n := by exact_mod_cast h
  rw [abs_of_nonneg h0] at h2
  have hp := overflowBound_pos
  unfold numberToString
  rw [h1, if_neg (not_le.mpr h2), if_neg (by linarith), if_neg (not_lt.mpr h0),
    Int.floor_intCast]

theorem isNumber_of_small (n : ℤ) (h0 : 0 ≤ n) (h : n ≤ 100) : isNumber n := by
  refine ⟨rnd_intCast n (by rw [abs_of_nonneg h0]; omega), ?_⟩
  have h1 : (0 : ℚ) ≤ n := by exact_mod_cast h0
  have h2 : (n : ℚ) ≤ 100 := by exact_mod_cast h
  rw [abs_of_nonneg h1]
  have : (100 : ℚ) < overflowBound := by unfold overflowBound; norm_num
  linarith

theorem rnd_toNat_of_isNumber (n : ℤ) (h : 0 ≤ n) (hn : isNumber n) :
    rnd ((n.toNat : ℕ) : ℚ) = ((n.toNat : ℕ) : ℚ) := by
  have e : ((n.toNat : ℕ) : ℚ) = (n : ℚ) := by
    have := Int.toNat_of_nonneg h
    exact_mod_cast this
  rw [e]
  exact hn.1

/-- The characters of the command line of a configuration with non-negative Numbers. -/
theorem generateCommandLine_data (c : Config) (hc : 0 ≤ c.cycles) (hcn : isNumber c.cycles)
    (hb : 0 ≤ c.bogusPercentage) (hbn : isNumber c.bogusPercentage) :
    (generateCommandLine c).data =
      "./llvm_obfuscator -i input.bc -o output_obfuscated -l ".data ++ (c.level.data ++
        (" -c ".data ++ (numberText c.cycles.toNat ++ (" -b ".data ++
          (numberText c.bogusPercentage.toNat ++
            flagsText c.stringEncryption c.fakeLooks))))) := by
  unfold generateCommandLine flagsText
  simp only
  cases c.stringEncryption <;> cases c.fakeLooks <;>
    simp [String.data_append, numberToString_of_isNumber _ hc hcn,
      numberToString_of_isNumber _ hb hbn]

/-- The command line is the fixed text, the three values in order, and each flag exactly
when its option is on. -/
theorem generateCommandLine_format (c : Config) :
    generateCommandLine c =
      "./llvm_obfuscator -i input.bc -o output_obfuscated -l " ++ c.level ++ " -c " ++
        numberToString c.cycles ++ " -b " ++ numberToString c.bogusPercentage ++
        (if c.stringEncryption = true then " --string-encryption" else "") ++
        (if c.fakeLooks = true then " --fake-looks" else "") := by
  rw [String.ext_iff]
  unfold generateCommandLine
  cases c.stringEncryption <;> cases c.fakeLooks <;> simp [String.data_append]

/-- C8: the command line of a configuration is the fixed text followed by its level, its
cycles and its bogus percentage, each as the program prints a Number, and by each flag exactly
when its option is on; and two valid configurations whose cycles are Numbers have the same
command line exactly when they are equal, so the configuration can be read back from the
command. -/
theorem generateCommandLine_injective (a b : Config) (ha : validConfig a) (hb : validConfig b)
    (hna : isNumber a.cycles) (hnb : isNumber b.cycles) :
    (generateCommandLine a = generateCommandLine b ↔ a = b) ∧
    generateCommandLine a =
      "./llvm_obfuscator -i input.bc -o output_obfuscated -l " ++ a.level ++ " -c " ++
        numberToString a.cycles ++ " -b " ++ numberToString a.bogusPercentage ++
        (if a.stringEncryption = true then " --string-encryption" else "") ++
        (if a.fakeLooks = true then " --fake-looks" else "") := by
  refine ⟨⟨fun h => ?_, fun h => by rw [h]⟩, generateCommandLine_format a⟩
  obtain ⟨hla, hca, hba0, hba1⟩ := ha
  obtain ⟨hlb, hcb, hbb0, hbb1⟩ := hb
  have hma := isNumber_of_small _ hba0 hba1
  have hmb := isNumber_of_small _ hbb0 hbb1
  have hca0 : 0 ≤ a.cycles := by omega
  have hcb0 : 0 ≤ b.cycles := by omega
  have hd := congrArg String.data h
  rw [generateCommandLine_data a hca0 hna hba0 hma, generateCommandLine_data b hcb0 hnb hbb0 hmb]
    at hd
  have h1 := List.append_cancel_left hd
  have hlevel : ∀ ta tb : List Char,
      a.level.data ++ (" -c ".data ++ ta) = b.level.data ++ (" -c ".data ++ tb) →
      a.level = b.level ∧ ta = tb := by
    intro ta tb h1
    rcases hla with e | e | e | e <;> rcases hlb with e' | e' | e' | e' <;>
      rw [e, e'] at h1 <;> simp at h1 <;> exact ⟨by rw [e, e'], h1⟩
  obtain ⟨hl, h2⟩ := hlevel _ _ h1
  obtain ⟨hcyc, h3⟩ := class_split (fun c => c.isDigit || c == '.' || c == 'e' || c == '+') _ _ _ _
    (numberText_chars _) (numberText_chars _)
    (separator_head _) (separator_head _) h2
  have h4 := List.append_cancel_left h3
  obtain ⟨hbog, h5⟩ := class_split (fun c => c.isDigit || c == '.' || c == 'e' || c == '+') _ _ _ _
    (numberText_chars _) (numberText_chars _)
    (flagsText_head _ _) (flagsText_head _ _) h4
  obtain ⟨hs, hf⟩ := flagsText_injective _ _ _ _ h5
  have e1 : a.cycles = b.cycles := by
    have := numberText_injective _ _ (rnd_toNat_of_isNumber _ hca0 hna)
      (rnd_toNat_of_isNumber _ hcb0 hnb) hcyc
    omega
  have e2 : a.bogusPercentage = b.bogusPercentage := by
    have := numberText_injective _ _ (rnd_toNat_of_isNumber _ hba0 hma)
      (rnd_toNat_of_isNumber _ hbb0 hmb) hbog
    omega
  cases a
  cases b
  simp only [Config.mk.injEq]
  exact ⟨hl, e1, e2, hs, hf⟩

/-- C8 at two configurations that differ in their cycles, `10^21` and the next Number
`10^21 + 2^17`: the commands differ, and the first one reads `-c 1e+21`. -/
theorem generateCommandLine_injective_witness :
    validConfig ⟨"medium", 10 ^ 21, 15, true, false⟩ ∧
    validConfig ⟨"medium", 10 ^ 21 + 2 ^ 17, 15, true, false⟩ ∧
    isNumber (10 ^ 21) ∧ isNumber (10 ^ 21 + 2 ^ 17) ∧
    generateCommandLine ⟨"medium", 10 ^ 21, 15, true, false⟩ ≠
      generateCommandLine ⟨"medium", 10 ^ 21 + 2 ^ 17, 15, true, false⟩ ∧
    generateCommandLine ⟨"medium", 10 ^ 21, 15, true, false⟩ =
      "./llvm_obfuscator -i input.bc -o output_obfuscated -l medium -c 1e+21 -b 15 --string-encryption" ∧
    generateCommandLine ⟨"medium", 10 ^ 21 + 2 ^ 17, 15, true, false⟩ =
      "./llvm_obfuscator -i input.bc -o output_obfuscated -l medium -c 1.0000000000000001e+21 -b 15 --string-encryption" :=
  ⟨by decide, by decide, by decide!, by decide!,
    fun h => absurd ((generateCommandLine_injective ⟨"medium", 10 ^ 21, 15, true, false⟩
      ⟨"medium", 10 ^ 21 + 2 ^ 17, 15, true, false⟩ (by decide) (by decide) (by decide!)
      (by decide!)).1.mp h) (by decide),
    by decide!, by decide!⟩

/-! ## The bogus-instruction count against its exact formula -/

theorem unitRoundoff_pos : 0 < unitRoundoff := by
  unfold unitRoundoff; norm_num

theorem unitRoundoff_lt_one : unitRoundoff < 1 := by
  unfold unitRoundoff; norm_num

/-- One rounding of a non-negative number moves it by a factor within `1 ± 2^-53`. -/
theorem rnd_rel (x : ℚ) (hx : 0 ≤ x) :
    x * (1 - unitRoundoff) ≤ rnd x ∧ rnd x ≤ x * (1 + unitRoundoff) := by
  rcases eq_or_lt_of_le hx with h | h
  · rw [← h, rnd_zero]; simp
  · have he := abs_le.mp (rnd_err_pos x h)
    have e : x / 2 ^ (53 : ℕ) = x * unitRoundoff := by
      unfold unitRoundoff; ring
    rw [e] at he
    constructor <;> linarith [he.1, he.2]

theorem approx_refl (A : ℚ) : approx 0 A A := by
  unfold approx; simp

theorem approx_nonneg (k : ℕ) (a A : ℚ) (hA : 0 ≤ A) (h : approx k a A) : 0 ≤ a := by
  have h1 : 0 ≤ (1 - unitRoundoff) ^ k :=
    pow_nonneg (by linarith [unitRoundoff_lt_one]) k
  exact le_trans (mul_nonneg hA h1) h.1

theorem approx_rnd (k : ℕ) (a A : ℚ) (hA : 0 ≤ A) (h : approx k a A) :
    approx (k + 1) (rnd a) A := by
  have ha := approx_nonneg k a A hA h
  obtain ⟨r1, r2⟩ := rnd_rel a ha
  have hu1 : 0 ≤ 1 - unitRoundoff := by linarith [unitRoundoff_lt_one]
  have hu2 : 0 ≤ 1 + unitRoundoff := by linarith [unitRoundoff_pos]
  constructor
  · calc A * (1 - unitRoundoff) ^ (k + 1)
        = (A * (1 - unitRoundoff) ^ k) * (1 - unitRoundoff) := by ring
      _ ≤ a * (1 - unitRoundoff) := mul_le_mul_of_nonneg_right h.1 hu1
      _ ≤ rnd a := r1
  · calc rnd a ≤ a * (1 + unitRoundoff) := r2
      _ ≤ (A * (1 + unitRoundoff) ^ k) * (1 + unitRoundoff) :=
          mul_le_mul_of_nonneg_right h.2 hu2
      _ = A * (1 + unitRoundoff) ^ (k + 1) := by ring

theorem approx_mul (j k : ℕ) (a A b B : ℚ) (hA : 0 ≤ A) (hB : 0 ≤ B)
    (ha : approx j a A) (hb : approx k b B) : approx (j + k) (a * b) (A * B) := by
  have ha0 := approx_nonneg j a A hA ha
  have hb0 := approx_nonneg k b B hB hb
  have hu1 : 0 ≤ 1 - unitRoundoff := by linarith [unitRoundoff_lt_one]
  have hu2 : 0 ≤ 1 + unitRoundoff := by linarith [unitRoundoff_pos]
  constructor
  · calc A * B * (1 - unitRoundoff) ^ (j + k)
        = (A * (1 - unitRoundoff) ^ j) * (B * (1 - unitRoundoff) ^ k) := by ring
      _ ≤ a * b :=
          mul_le_mul ha.1 hb.1 (mul_nonneg hB (pow_nonneg hu1 k)) ha0
  · calc a * b ≤ (A * (1 + unitRoundoff) ^ j) * (B * (1 + unitRoundoff) ^ k) :=
          mul_le_mul ha.2 hb.2 hb0 (mul_nonneg hA (pow_nonneg hu2 j))
      _ = A * B * (1 + unitRoundoff) ^ (j + k) := by ring

theorem approx_one_add (k : ℕ) (t T : ℚ) (h : approx k t T) :
    approx k (1 + t) (1 + T) := by
  have hu1 : 0 ≤ 1 - unitRoundoff := by linarith [unitRoundoff_lt_one]
  have h1 : (1 - unitRoundoff) ^ k ≤ 1 :=
    pow_le_one₀ hu1 (by linarith [unitRoundoff_pos])
  have h2 : 1 ≤ (1 + unitRoundoff) ^ k :=
    one_le_pow₀ (by linarith [unitRoundoff_pos])
  constructor
  · calc (1 + T) * (1 - unitRoundoff) ^ k
        = (1 - unitRoundoff) ^ k + T * (1 - unitRoundoff) ^ k := by ring
      _ ≤ 1 + t := by linarith [h.1]
  · calc 1 + t ≤ 1 + T * (1 + unitRoundoff) ^ k := by linarith [h.2]
      _ ≤ (1 + unitRoundoff) ^ k + T * (1 + unitRoundoff) ^ k := by linarith
      _ = (1 + T) * (1 + unitRoundoff) ^ k := by ring

/-- The product computed by `calculateBogusInstructions` is the exact product after six
roundings, as long as `cycles` and `bogusPercentage` are integers read exactly. -/
theorem bogus_product_approx (base : ℚ) (b cyc : ℤ) (hbase : 0 ≤ base) (hb0 : 0 ≤ b)
    (hb1 : b ≤ 100) (hc : 1 ≤ cyc) (hc1 : cyc ≤ 10 ^ 10) :
    approx 6
      (fmul (fmul base (fdiv (ofInt b) 15))
        (fadd 1 (fmul (fsub (ofInt cyc) 1) (lit (3 / 10)))))
      (base * ((b : ℚ) / 15) * (1 + ((cyc : ℚ) - 1) * (3 / 10))) := by
  have hbq : (0 : ℚ) ≤ b := by exact_mod_cast hb0
  have hcq : (0 : ℚ) ≤ (cyc : ℚ) - 1 := by
    have : (1 : ℚ) ≤ cyc := by exact_mod_cast hc
    linarith
  have eb : ofInt b = b := ofInt_eq b (by rw [abs_lt]; constructor <;> omega)
  have ec : ofInt cyc = cyc := ofInt_eq cyc (by rw [abs_lt]; constructor <;> omega)
  have ed : fsub (ofInt cyc) 1 = (cyc : ℚ) - 1 := by
    unfold fsub
    rw [ec]
    have := rnd_intCast (cyc - 1) (by rw [abs_lt]; constructor <;> omega)
    push_cast at this
    exact this
  rw [eb, ed]
  have a1 : approx 1 (fdiv (b : ℚ) 15) ((b : ℚ) / 15) :=
    approx_rnd 0 _ _ (by positivity) (approx_refl _)
  have a2 : approx 2 (fmul base (fdiv (b : ℚ) 15)) (base * ((b : ℚ) / 15)) := by
    have := approx_mul 0 1 base base _ _ hbase (by positivity) (approx_refl _) a1
    exact approx_rnd _ _ _ (by positivity) this
  have a3 : approx 1 (lit (3 / 10)) (3 / 10) :=
    approx_rnd 0 _ _ (by norm_num) (approx_refl _)
  have a4 : approx 2 (fmul ((cyc : ℚ) - 1) (lit (3 / 10))) (((cyc : ℚ) - 1) * (3 / 10)) := by
    have := approx_mul 0 1 _ _ _ _ hcq (by norm_num) (approx_refl ((cyc : ℚ) - 1)) a3
    exact approx_rnd _ _ _ (by positivity) this
  have a5 : approx 3 (fadd 1 (fmul ((cyc : ℚ) - 1) (lit (3 / 10))))
      (1 + ((cyc : ℚ) - 1) * (3 / 10)) :=
    approx_rnd _ _ _ (by positivity) (approx_one_add _ _ _ a4)
  have a6 := approx_mul 2 3 _ _ _ _ (by positivity) (by positivity) a2 a5
  exact approx_rnd _ _ _ (by positivity) a6

/-- A number within a sixth of a third of an integer rounds half-up like it. -/
theorem floor_half_eq_of_close (N : ℤ) (w : ℚ) (h1 : (N : ℚ) / 3 - 1 / 6 < w)
    (h2 : w < (N : ℚ) / 3 + 1 / 6) : ⌊w + 1 / 2⌋ = ⌊(N : ℚ) / 3 + 1 / 2⌋ := by
  set n := ⌊(N : ℚ) / 3 + 1 / 2⌋ with hn
  have f1 : (n : ℚ) ≤ (N : ℚ) / 3 + 1 / 2 := Int.floor_le _
  have f2 : (N : ℚ) / 3 + 1 / 2 < (n : ℚ) + 1 := Int.lt_floor_add_one _
  have g1 : 6 * n ≤ 2 * N + 3 := by
    have : (6 : ℚ) * n ≤ 2 * N + 3 := by linarith
    exact_mod_cast this
  have g2 : 2 * N + 3 < 6 * n + 6 := by
    have : (2 : ℚ) * N + 3 < 6 * n + 6 := by linarith
    exact_mod_cast this
  have g3 : 6 * n + 1 ≤ 2 * N + 3 := by omega
  have g4 : 2 * N + 3 ≤ 6 * n + 5 := by omega
  have q3 : (6 : ℚ) * n + 1 ≤ 2 * N + 3 := by exact_mod_cast g3
  have q4 : (2 : ℚ) * N + 3 ≤ 6 * n + 5 := by exact_mod_cast g4
  rw [Int.floor_eq_iff]
  constructor <;> linarith

/-- For every valid configuration with at most `10^10` cycles, the count computed by
`calculateBogusInstructions` is the value of the formula in exact arithmetic, rounded
half-up: the six roundings move the product by less than a sixth, and the exact value is a
third of an integer. -/
theorem calculateBogusInstructions_eq_exact (c : Config) (hv : validConfig c)
    (hc1 : c.cycles ≤ 10 ^ 10) :
    calculateBogusInstructions c = (specBogusInstructions c : ℚ) := by
  obtain ⟨hl, hc, hb0, hb1⟩ := hv
  -- the base constant is fifty times an integer of at most 160
  have hbase : ∃ k : ℤ, 0 ≤ k ∧ k ≤ 160 ∧ (getBaseMetrics c.level).baseBogus = 50 * (k : ℚ) ∧
      baseBogus c.level = 50 * (k : ℚ) := by
    unfold getBaseMetrics metrics baseBogus
    rcases hl with e | e | e | e <;> rw [e]
    · exact ⟨10, by norm_num, by norm_num, by simp; norm_num, by simp; norm_num⟩
    · exact ⟨30, by norm_num, by norm_num, by simp; norm_num, by simp; norm_num⟩
    · exact ⟨80, by norm_num, by norm_num, by simp; norm_num, by simp; norm_num⟩
    · exact ⟨160, by norm_num, by norm_num, by simp; norm_num, by simp; norm_num⟩
  obtain ⟨k, hk0, hk1, hg, hs⟩ := hbase
  have hkq0 : (0 : ℚ) ≤ k := by exact_mod_cast hk0
  have hkq1 : (k : ℚ) ≤ 160 := by exact_mod_cast hk1
  have hbq0 : (0 : ℚ) ≤ c.bogusPercentage := by exact_mod_cast hb0
  have hbq1 : (c.bogusPercentage : ℚ) ≤ 100 := by exact_mod_cast hb1
  have hcq0 : (1 : ℚ) ≤ c.cycles := by exact_mod_cast hc
  have hcq1 : (c.cycles : ℚ) ≤ 10 ^ 10 := by exact_mod_cast hc1
  have happ := bogus_product_approx (50 * (k : ℚ)) c.bogusPercentage c.cycles
    (by positivity) hb0 hb1 hc hc1
  set W := fmul (fmul (50 * (k : ℚ)) (fdiv (ofInt c.bogusPercentage) 15))
        (fadd 1 (fmul (fsub (ofInt c.cycles) 1) (lit (3 / 10)))) with hW
  set V := 50 * (k : ℚ) * ((c.bogusPercentage : ℚ) / 15) *
    (1 + ((c.cycles : ℚ) - 1) * (3 / 10)) with hV
  have hVN : V = ((k * c.bogusPercentage * (3 * c.cycles + 7) : ℤ) : ℚ) / 3 := by
    rw [hV]; push_cast; ring
  have hV0 : 0 ≤ V := by
    rw [hV]
    have : (0 : ℚ) ≤ 1 + ((c.cycles : ℚ) - 1) * (3 / 10) := by linarith
    positivity
  have hVmax : V ≤ 161000000000000 := by
    have p1 : (k : ℚ) * c.bogusPercentage ≤ 160 * 100 :=
      mul_le_mul hkq1 hbq1 hbq0 (by norm_num)
    have p2 : (0 : ℚ) ≤ 3 * c.cycles + 7 := by linarith
    have p3 : (k : ℚ) * c.bogusPercentage * (3 * c.cycles + 7) ≤
        160 * 100 * (3 * 10 ^ 10 + 7) :=
      mul_le_mul p1 (by linarith) p2 (by norm_num)
    rw [hVN]; push_cast
    linarith
  have hlo : (1 : ℚ) - 1 / 1000000000000000 ≤ (1 - unitRoundoff) ^ 6 := by
    unfold unitRoundoff; norm_num
  have hhi : (1 + unitRoundoff) ^ 6 ≤ 1 + 7 / 10000000000000000 := by
    unfold unitRoundoff; norm_num
  have hw1 : V - 1 / 6 < W := by
    have h1 := happ.1
    have h2 := mul_le_mul_of_nonneg_left hlo hV0
    linarith
  have hw2 : W < V + 1 / 6 := by
    have h1 := happ.2
    have h2 := mul_le_mul_of_nonneg_left hhi hV0
    linarith
  have hcalc : calculateBogusInstructions c = ((⌊W + 1 / 2⌋ : ℤ) : ℚ) := by
    unfold calculateBogusInstructions mathRound
    simp only [hg]
  have hspec : specBogusInstructions c = ⌊V + 1 / 2⌋ := by
    unfold specBogusInstructions exactBogusInstructions
    rw [hs]
  rw [hcalc, hspec]
  rw [hVN] at hw1 hw2 ⊢
  rw [floor_half_eq_of_close _ W hw1 hw2]

/-- C10, amended: for every valid configuration with at most `10^10` cycles, the count
returned by `calculateBogusInstructions` is the value of
`baseBogus(level) * (bogusPercentage / 15) * (1 + (cycles - 1) * 0.3)` in exact arithmetic,
rounded half-up to an integer, with `baseBogus` 500, 1500, 4000, 8000 for low, medium,
high, ultra. -/
theorem calculateBogusInstructions_eq_spec (c : Config) (hv : validConfig c)
    (hc1 : c.cycles ≤ 10 ^ 10) :
    (baseBogus "low" = 500 ∧ baseBogus "medium" = 1500 ∧ baseBogus "high" = 4000 ∧
      baseBogus "ultra" = 8000) ∧
    calculateBogusInstructions c = (specBogusInstructions c : ℚ) :=
  ⟨⟨by decide, by decide, by decide, by decide⟩, calculateBogusInstructions_eq_exact c hv hc1⟩

/-- C10 at its example: low, three cycles, 20 percent, no feature gives 1067, which is the
exact value `1066 + 2/3` rounded half-up. -/
theorem calculateBogusInstructions_eq_spec_witness :
    validConfig ⟨"low", 3, 20, false, false⟩ ∧ (3 : ℤ) ≤ 10 ^ 10 ∧
    exactBogusInstructions ⟨"low", 3, 20, false, false⟩ = 1066 + 2 / 3 ∧
    calculateBogusInstructions ⟨"low", 3, 20, false, false⟩ = 1067 ∧
    calculateBogusInstructions ⟨"low", 3, 20, false, false⟩ =
      (specBogusInstructions ⟨"low", 3, 20, false, false⟩ : ℚ) :=
  ⟨by decide, by norm_num, by decide!, by decide!,
    (calculateBogusInstructions_eq_spec ⟨"low", 3, 20, false, false⟩ (by decide)
      (by norm_num)).2⟩

/-- C10 as stated fails: at ultra, `10^11` cycles and 100 percent, a valid configuration, the
exact value is `1600000000037333 + 1/3`, which rounds half-up to `1600000000037333`, while
the product of numbers is `1600000000037333.5`, which `Math.round` takes to
`1600000000037334`. -/
theorem calculateBogusInstructions_ne_spec :
    validConfig ⟨"ultra", 100000000000, 100, false, false⟩ ∧
    exactBogusInstructions ⟨"ultra", 100000000000, 100, false, false⟩ =
      1600000000037333 + 1 / 3 ∧
    specBogusInstructions ⟨"ultra", 100000000000, 100, false, false⟩ = 1600000000037333 ∧
    fmul (fmul 8000 (fdiv (ofInt 100) 15))
      (fadd 1 (fmul (fsub (ofInt 100000000000) 1) (lit (3 / 10)))) =
      1600000000037333 + 1 / 2 ∧
    calculateBogusInstructions ⟨"ultra", 100000000000, 100, false, false⟩ =
      1600000000037334 ∧
    calculateBogusInstructions ⟨"ultra", 100000000000, 100, false, false⟩ ≠
      (specBogusInstructions ⟨"ultra", 100000000000, 100, false, false⟩ : ℚ) := by
  refine ⟨by decide, by decide!, by decide!, by decide!, by decide!, by decide!⟩

/-! ## What the metrics object holds -/

/-- The scores and the performance projection in the object returned by
`calculateObfuscationMetrics` are the ones of the methods of those names. -/
theorem calculateObfuscationMetrics_fields (c : Config) (m : DerivedMetrics)
    (h : calculateObfuscationMetrics c = .ok m) :
    m.complexityScore = calculateComplexityScore c ∧
    m.securityScore = calculateSecurityScore c (calculateComplexityScore c) ∧
    calculatePerformanceImpact c = .ok m.performanceImpact := by
  unfold calculateObfuscationMetrics at h
  cases hp : calculatePerformanceImpact c with
  | error e => rw [hp] at h; exact absurd h (by simp)
  | ok p =>
    rw [hp] at h
    simp only at h
    cases hr : getRecommendedSettings c (calculateComplexityScore c) with
    | error e => rw [hr] at h; exact absurd h (by simp)
    | ok r =>
      rw [hr] at h
      simp only [Except.ok.injEq] at h
      subst h
      exact ⟨rfl, rfl, rfl⟩

/-- Each recommendation is in the result of `analyzeConfiguration` exactly when the
condition of its rule holds. -/
theorem mem_analyzeConfiguration (c : Config) (m : DerivedMetrics) :
    (warningRecommendation ∈ analyzeConfiguration c m ↔
      (m.securityScore > 90 ∧ m.performanceImpact.time.value > 20)) ∧
    (infoRecommendation ∈ analyzeConfiguration c m ↔ c.bogusPercentage > 30) ∧
    (successRecommendation ∈ analyzeConfiguration c m ↔
      (c.level = "low" ∧ c.stringEncryption = true)) ∧
    (errorRecommendation ∈ analyzeConfiguration c m ↔ m.securityScore < 60) := by
  have hwi : warningRecommendation ≠ infoRecommendation := by decide
  have hws : warningRecommendation ≠ successRecommendation := by decide
  have hwe : warningRecommendation ≠ errorRecommendation := by decide
  have his : infoRecommendation ≠ successRecommendation := by decide
  have hie : infoRecommendation ≠ errorRecommendation := by decide
  have hse : successRecommendation ≠ errorRecommendation := by decide
  unfold analyzeConfiguration
  simp only [parseFloat_gt_twenty, ofInt_gt_thirty]
  by_cases h1 : m.securityScore > 90 ∧ m.performanceImpact.time.value > 20 <;>
  by_cases h2 : c.bogusPercentage > 30 <;>
  by_cases h3 : (c.level = "low" ∧ c.stringEncryption = true) <;>
  by_cases h4 : m.securityScore < 60 <;>
  simp [h1, h2, h3, h4, hwi, hws, hwe, his, hie, hse, hwi.symm, hws.symm, hwe.symm,
    his.symm, hie.symm, hse.symm]

/-- The result of `analyzeConfiguration` has one entry for each rule whose condition
holds. -/
theorem length_analyzeConfiguration (c : Config) (m : DerivedMetrics) :
    (analyzeConfiguration c m).length =
      (if m.securityScore > 90 ∧ m.performanceImpact.time.value > 20 then 1 else 0) +
      (if c.bogusPercentage > 30 then 1 else 0) +
      (if c.level = "low" ∧ c.stringEncryption = true then 1 else 0) +
      (if m.securityScore < 60 then 1 else 0) := by
  unfold analyzeConfiguration
  simp only [parseFloat_gt_twenty, ofInt_gt_thirty]
  by_cases h1 : m.securityScore > 90 ∧ m.performanceImpact.time.value > 20 <;>
  by_cases h2 : c.bogusPercentage > 30 <;>
  by_cases h3 : (c.level = "low" ∧ c.stringEncryption = true) <;>
  by_cases h4 : m.securityScore < 60 <;>
  simp [h1, h2, h3, h4]

/-! ## The clamp of the scores -/

theorem mathMin_le_right (a b : ℚ) : mathMin a b ≤ b := by
  unfold mathMin
  split_ifs with h
  · exact h
  · exact le_refl b

/-- C13, amended: for every configuration whose level names no inherited member, with
cycles and bogus percentage inside the documented domain or not, and for every complexity
argument, the two scores are at most 100; the methods clamp above only. -/
theorem scores_le_hundred (c : Config) (complexity : ℚ) (hi : c.level ∉ inheritedKeys) :
    calculateComplexityScore c ≤ 100 ∧ calculateSecurityScore c complexity ≤ 100 ∧
    calculateSecurityScore c (calculateComplexityScore c) ≤ 100 :=
  ⟨mathMin_le_right _ _, mathMin_le_right _ _, mathMin_le_right _ _⟩

/-- C13, amended, at level low with one cycle, a bogus percentage of -100 and no feature,
and at medium with 1000 cycles, where the clamp at 100 acts. -/
theorem scores_le_hundred_witness :
    "low" ∉ inheritedKeys ∧
    (calculateComplexityScore ⟨"low", 1, -100, false, false⟩ ≤ 100 ∧
      calculateSecurityScore ⟨"low", 1, -100, false, false⟩ (-62) ≤ 100 ∧
      calculateSecurityScore ⟨"low", 1, -100, false, false⟩
        (calculateComplexityScore ⟨"low", 1, -100, false, false⟩) ≤ 100) ∧
    calculateComplexityScore ⟨"medium", 1000, 15, true, true⟩ = 100 :=
  ⟨by decide, scores_le_hundred ⟨"low", 1, -100, false, false⟩ (-62) (by decide), by decide!⟩

/-- C13 as stated fails: with a bogus percentage of -100 at level low, one cycle and no
feature, the complexity score is -62 and the security score computed from it is -43. -/
theorem scores_not_clamped_below :
    calculateComplexityScore ⟨"low", 1, -100, false, false⟩ = -62 ∧
    calculateSecurityScore ⟨"low", 1, -100, false, false⟩
      (calculateComplexityScore ⟨"low", 1, -100, false, false⟩) = -43 ∧
    ¬ (0 ≤ calculateComplexityScore ⟨"low", 1, -100, false, false⟩) ∧
    ¬ (0 ≤ calculateSecurityScore ⟨"low", 1, -100, false, false⟩
      (calculateComplexityScore ⟨"low", 1, -100, false, false⟩)) := by
  refine ⟨by decide!, by decide!, by decide!, by decide!⟩

/-! ## Rule 4 at level ultra with both features -/

/-- The score before the feature bonuses is at least the base constant less 15. -/
theorem complexity_before_features_ge (base : ℚ) (B : ℤ) (hB : |B| < 2 ^ 52)
    (hbase : (B : ℚ) ≤ base) (cycles b : ℤ) (hc : 1 ≤ cycles) (hb0 : 0 ≤ b) (hb1 : b ≤ 100) :
    ((B - 15 : ℤ) : ℚ) ≤
      fadd (fadd base (fmul (fsub (ofInt cycles) 1) 8))
        (fmul (fsub (ofInt b) 15) (lit (8 / 10))) := by
  have hB2 := abs_lt.mp hB
  have ht1 : 0 ≤ fmul (fsub (ofInt cycles) 1) 8 :=
    fmul_nonneg _ _ (cyclesMinusOne_nonneg _ hc) (by norm_num)
  have hs1 : (B : ℚ) ≤ fadd base (fmul (fsub (ofInt cycles) 1) 8) :=
    le_rnd_of_intCast_le B _ (by rw [abs_lt]; constructor <;> omega) (by linarith)
  have hb : ofInt b = b := ofInt_eq _ (by rw [abs_lt]; constructor <;> omega)
  have hd : fsub (ofInt b) 15 = ((b - 15 : ℤ) : ℚ) := by
    unfold fsub
    rw [hb]
    have := rnd_intCast (b - 15) (by rw [abs_lt]; constructor <;> omega)
    push_cast at this ⊢
    exact this
  have hk0 : 0 ≤ lit (8 / 10) := lit_nonneg _ (by norm_num)
  have hk1 : lit (8 / 10) ≤ 1 := by
    have := rnd_le_of_le_intCast 1 (8 / 10) (by norm_num) (by norm_num)
    simpa [lit] using this
  have hd0 : (-15 : ℚ) ≤ ((b - 15 : ℤ) : ℚ) := by
    have : (-15 : ℤ) ≤ b - 15 := by omega
    exact_mod_cast this
  have ht2 : (-15 : ℚ) ≤ fmul (fsub (ofInt b) 15) (lit (8 / 10)) := by
    rw [hd]
    have hprod : (-15 : ℚ) ≤ ((b - 15 : ℤ) : ℚ) * lit (8 / 10) := by
      rcases le_total 0 ((b - 15 : ℤ) : ℚ) with hp | hn
      · have := mul_nonneg hp hk0
        linarith
      · nlinarith
    have := le_rnd_of_intCast_le (-15) _ (by norm_num) (by push_cast; exact hprod)
    simpa [fmul] using this
  exact le_rnd_of_intCast_le (B - 15) _ (by rw [abs_lt]; constructor <;> omega)
    (by push_cast; linarith)

/-- At level ultra with both features the complexity score is 100. -/
theorem complexity_ultra_all_features (c : Config) (hl : c.level = "ultra")
    (hse : c.stringEncryption = true) (hfl : c.fakeLooks = true) (hc : 1 ≤ c.cycles)
    (hb0 : 0 ≤ c.bogusPercentage) (hb1 : c.bogusPercentage ≤ 100) :
    calculateComplexityScore c = 100 := by
  have hbase : (getBaseMetrics c.level).baseComplexity = 95 := by
    rw [hl]; decide
  have h2 := complexity_before_features_ge 95 95 (by norm_num) (by norm_num)
    c.cycles c.bogusPercentage hc hb0 hb1
  have h3 : (92 : ℚ) ≤ fadd (fadd (fadd 95 (fmul (fsub (ofInt c.cycles) 1) 8))
      (fmul (fsub (ofInt c.bogusPercentage) 15) (lit (8 / 10)))) 12 :=
    le_rnd_of_intCast_le 92 _ (by norm_num) (by push_cast at h2 ⊢; linarith)
  have h4 : (100 : ℚ) ≤ fadd (fadd (fadd (fadd 95 (fmul (fsub (ofInt c.cycles) 1) 8))
      (fmul (fsub (ofInt c.bogusPercentage) 15) (lit (8 / 10)))) 12) 8 :=
    le_rnd_of_intCast_le 100 _ (by norm_num) (by push_cast; linarith)
  have h5 := mathRound_mono _ _ h4
  have h6 : mathRound 100 = 100 := by decide!
  rw [h6] at h5
  unfold calculateComplexityScore
  simp only [hbase, hse, hfl, if_true]
  unfold mathMin
  split_ifs with h
  · exact le_antisymm h h5
  · rfl

/-- C12: at level ultra with string encryption and fake looks on, for every number of cycles
from 1 and every bogus percentage of 0 to 100, the complexity score is 100, the security
score is 95 or 100, and `analyzeConfiguration` gives no error recommendation. -/
theorem ultra_all_features_no_error (c : Config) (hl : c.level = "ultra")
    (hse : c.stringEncryption = true) (hfl : c.fakeLooks = true) (hc : 1 ≤ c.cycles)
    (hb0 : 0 ≤ c.bogusPercentage) (hb1 : c.bogusPercentage ≤ 100) :
    ∃ m, calculateObfuscationMetrics c = .ok m ∧ m.complexityScore = 100 ∧
      (m.securityScore = 95 ∨ m.securityScore = 100) ∧
      errorRecommendation ∉ analyzeConfiguration c m := by
  obtain ⟨m, hm⟩ := calculateObfuscationMetrics_ok c
    (by rw [hl]; exact Or.inr (Or.inr (Or.inr rfl)))
  obtain ⟨f1, f2, _⟩ := calculateObfuscationMetrics_fields c m hm
  have hcx := complexity_ultra_all_features c hl hse hfl hc hb0 hb1
  have hX : fadd (fadd (fmul 100 (lit (7 / 10))) 15) 10 = 95 := by decide!
  have hY : fadd 95 5 = 100 := by decide!
  have h1 : mathMin (mathRound 95) 100 = 95 := by decide!
  have h2 : mathMin (mathRound 100) 100 = 100 := by decide!
  have hsec : m.securityScore = 95 ∨ m.securityScore = 100 := by
    rw [f2, hcx]
    unfold calculateSecurityScore
    simp only [hl, hse, if_true, hX, or_true]
    split_ifs
    · right; rw [hY, h2]
    · left; exact h1
  refine ⟨m, hm, by rw [f1, hcx], hsec, ?_⟩
  rw [(mem_analyzeConfiguration c m).2.2.2]
  rcases hsec with e | e <;> rw [e] <;> norm_num

/-- C12 at ultra, one cycle, 15 percent, both features. -/
theorem ultra_all_features_no_error_witness :
    (1 : ℤ) ≤ 1 ∧ (0 : ℤ) ≤ 15 ∧ (15 : ℤ) ≤ 100 ∧
    ∃ m, calculateObfuscationMetrics ⟨"ultra", 1, 15, true, true⟩ = .ok m ∧
      m.complexityScore = 100 ∧ (m.securityScore = 95 ∨ m.securityScore = 100) ∧
      errorRecommendation ∉ analyzeConfiguration ⟨"ultra", 1, 15, true, true⟩ m :=
  ⟨by norm_num, by norm_num, by norm_num,
    ultra_all_features_no_error ⟨"ultra", 1, 15, true, true⟩ rfl rfl rfl
      (by norm_num) (by norm_num) (by norm_num)⟩

/-! ## The performance percentages -/

/-- The string `toFixed(1)` makes of a non-negative number spells a natural number of
tenths. -/
theorem toFixed1_nonneg (x : ℚ) (hx : 0 ≤ x) : ∃ n : ℕ, 10 * (toFixed1 x).value = n := by
  have h : 0 ≤ ⌊x * 10 + 1 / 2⌋ := Int.floor_nonneg.mpr (by linarith)
  refine ⟨⌊x * 10 + 1 / 2⌋.toNat, ?_⟩
  unfold toFixed1 Decimal1.value
  rw [if_neg (by linarith)]
  have e : ((⌊x * 10 + 1 / 2⌋.toNat : ℕ) : ℤ) = ⌊x * 10 + 1 / 2⌋ := Int.toNat_of_nonneg h
  have e2 : ((⌊x * 10 + 1 / 2⌋.toNat : ℕ) : ℚ) = ((⌊x * 10 + 1 / 2⌋ : ℤ) : ℚ) := by
    exact_mod_cast e
  rw [e2]
  ring

/-- The string `toFixed(1)` makes of a number is within a twentieth of it. -/
theorem toFixed1_close (x : ℚ) : |(toFixed1 x).value - x| ≤ 1 / 20 := by
  unfold toFixed1 Decimal1.value
  split_ifs with h
  · have h1 := Int.floor_le (-x * 10 + 1 / 2)
    have h2 := Int.lt_floor_add_one (-x * 10 + 1 / 2)
    rw [abs_le]
    push_cast
    constructor <;> linarith
  · have h1 := Int.floor_le (x * 10 + 1 / 2)
    have h2 := Int.lt_floor_add_one (x * 10 + 1 / 2)
    rw [abs_le]
    constructor <;> linarith

theorem one_le_fmul (a b : ℚ) (ha : 1 ≤ a) (hb : 1 ≤ b) : 1 ≤ fmul a b := by
  have : (1 : ℚ) ≤ a * b := by nlinarith
  have := le_rnd_of_intCast_le 1 (a * b) (by norm_num) (by push_cast; exact this)
  simpa [fmul] using this

theorem one_le_fadd_one (t : ℚ) (ht : 0 ≤ t) : 1 ≤ fadd 1 t := by
  have := le_rnd_of_intCast_le 1 (1 + t) (by norm_num) (by push_cast; linarith)
  simpa [fadd] using this

/-- A percentage `(p - 1) * 100` is non-negative when the factor `p` is at least 1. -/
theorem percent_nonneg (p : ℚ) (hp : 1 ≤ p) : 0 ≤ fmul (fsub p 1) 100 :=
  fmul_nonneg _ _ (rnd_nonneg _ (by linarith)) (by norm_num)

/-- Every row of `performanceBaseline` holds factors of at least 1. -/
theorem performanceBaseline_ge_one (level : String) (h : validLevel level) :
    ∃ base, performanceBaseline level = some base ∧ 1 ≤ base.size ∧ 1 ≤ base.time ∧
      1 ≤ base.memory := by
  have key : ∀ q : ℚ, 1 ≤ q → 1 ≤ lit q := by
    intro q hq
    have := le_rnd_of_intCast_le 1 q (by norm_num) (by push_cast; exact hq)
    simpa [lit] using this
  unfold performanceBaseline
  rcases h with e | e | e | e <;> rw [e] <;> simp <;>
    exact ⟨key _ (by norm_num), key _ (by norm_num), key _ (by norm_num)⟩

/-! ## Rule 4 at level low with one cycle and no feature -/

/-- At level low with one cycle and no feature, the security score is below 60 exactly for
the bogus percentages 0 to 84, among those of 0 to 100. -/
theorem low_plain_security_lt_sixty :
    ∀ n : ℕ, n < 101 →
      (calculateSecurityScore ⟨"low", 1, (n : ℤ), false, false⟩
          (calculateComplexityScore ⟨"low", 1, (n : ℤ), false, false⟩) < 60 ↔ n ≤ 84) := by
  decide!

/-- C11, amended: at level low with one cycle and no feature, for a bogus percentage of 0 to
100 the result of `analyzeConfiguration` on the metrics of the configuration contains the
error recommendation exactly when the bogus percentage is at most 84. -/
theorem low_plain_error_iff (c : Config) (hl : c.level = "low") (hc : c.cycles = 1)
    (hse : c.stringEncryption = false) (hfl : c.fakeLooks = false)
    (hb0 : 0 ≤ c.bogusPercentage) (hb1 : c.bogusPercentage ≤ 100) :
    ∃ m, calculateObfuscationMetrics c = .ok m ∧
      (errorRecommendation ∈ analyzeConfiguration c m ↔ c.bogusPercentage ≤ 84) := by
  obtain ⟨m, hm⟩ := calculateObfuscationMetrics_ok c (by rw [hl]; exact Or.inl rfl)
  obtain ⟨_, f2, _⟩ := calculateObfuscationMetrics_fields c m hm
  refine ⟨m, hm, ?_⟩
  rw [(mem_analyzeConfiguration c m).2.2.2, f2]
  obtain ⟨n, hn⟩ : ∃ n : ℕ, c.bogusPercentage = (n : ℤ) :=
    ⟨c.bogusPercentage.toNat, by omega⟩
  have hc2 : c = ⟨"low", 1, (n : ℤ), false, false⟩ := by
    cases c
    simp_all
  rw [hc2]
  have key := low_plain_security_lt_sixty n (by omega)
  simp only at key ⊢
  rw [key]
  omega

/-- C11 at the reference bogus percentage 15: the security score is 21 and the error
recommendation is the whole result. -/
theorem low_plain_error_iff_witness :
    (0 : ℤ) ≤ 15 ∧ (15 : ℤ) ≤ 100 ∧
    calculateObfuscationMetrics ⟨"low", 1, 15, false, false⟩ =
      .ok ⟨500, 0, 0, 3, 30, 21, ⟨⟨97⟩, ⟨30⟩, ⟨40⟩⟩, ⟨some "medium", some 2⟩⟩ ∧
    ∃ m, calculateObfuscationMetrics ⟨"low", 1, 15, false, false⟩ = .ok m ∧
      (errorRecommendation ∈ analyzeConfiguration ⟨"low", 1, 15, false, false⟩ m ↔
        (15 : ℤ) ≤ 84) :=
  ⟨by norm_num, by norm_num, by decide!,
    low_plain_error_iff ⟨"low", 1, 15, false, false⟩ rfl rfl rfl rfl
      (by norm_num) (by norm_num)⟩

/-- C11 as stated fails: at level low with one cycle, no feature and a bogus percentage of
100, the complexity score is 98, the security score is 69, and the result of
`analyzeConfiguration` is the info recommendation alone. -/
theorem low_plain_no_error_at_hundred :
    calculateObfuscationMetrics ⟨"low", 1, 100, false, false⟩ =
      .ok ⟨3333, 0, 0, 3, 98, 69, ⟨⟨365⟩, ⟨30⟩, ⟨40⟩⟩, ⟨none, none⟩⟩ ∧
    analyzeConfiguration ⟨"low", 1, 100, false, false⟩
      ⟨3333, 0, 0, 3, 98, 69, ⟨⟨365⟩, ⟨30⟩, ⟨40⟩⟩, ⟨none, none⟩⟩ = [infoRecommendation] ∧
    errorRecommendation ∉ analyzeConfiguration ⟨"low", 1, 100, false, false⟩
      ⟨3333, 0, 0, 3, 98, 69, ⟨⟨365⟩, ⟨30⟩, ⟨40⟩⟩, ⟨none, none⟩⟩ := by
  refine ⟨by decide!, by decide!, by decide!⟩

/-! ## The warning and the other recommendations -/

theorem mathMin_le_left (a b : ℚ) : mathMin a b ≤ a := by
  unfold mathMin
  split_ifs with h
  · exact le_refl a
  · exact le_of_lt (not_le.mp h)

/-- At the levels low and medium the security score computed from a complexity score of at
most 100 is at most 90. -/
theorem securityScore_le_ninety (c : Config) (x : ℚ) (hx : x ≤ 100)
    (hl : c.level = "low" ∨ c.level = "medium") : calculateSecurityScore c x ≤ 90 := by
  have hk0 : 0 ≤ lit (7 / 10) := lit_nonneg _ (by norm_num)
  have hk1 : lit (7 / 10) ≤ 7 / 10 := by decide!
  have h0 : fmul x (lit (7 / 10)) ≤ 70 := by
    have : x * lit (7 / 10) ≤ 70 := by nlinarith
    have := rnd_le_of_le_intCast 70 _ (by norm_num) (by push_cast; exact this)
    simpa [fmul] using this
  have h1 : (if c.stringEncryption = true then fadd (fmul x (lit (7 / 10))) 15
      else fmul x (lit (7 / 10))) ≤ 85 := by
    split_ifs
    · have := rnd_le_of_le_intCast 85 (fmul x (lit (7 / 10)) + 15) (by norm_num)
        (by push_cast; linarith)
      simpa [fadd] using this
    · linarith
  have hnot : ¬ (c.level = "high" ∨ c.level = "ultra") := by
    rcases hl with e | e <;> rw [e] <;> decide
  have h90 : mathRound 90 = 90 := by decide!
  unfold calculateSecurityScore
  simp only [if_neg hnot]
  refine le_trans (mathMin_le_left _ _) ?_
  rw [← h90]
  apply mathRound_mono
  generalize (if c.stringEncryption = true then fadd (fmul x (lit (7 / 10))) 15
    else fmul x (lit (7 / 10))) = s1 at h1 ⊢
  split_ifs
  · have := rnd_le_of_le_intCast 90 (s1 + 5) (by norm_num) (by push_cast; linarith)
    simpa [fadd] using this
  · linarith

/-- C15: for every valid configuration and its metrics, the security score is at most 90 at
the levels low and medium, so the warning recommendation is in the result of
`analyzeConfiguration` only at the levels high and ultra; the warning is never in the result
together with the success recommendation nor together with the error recommendation, and
the result holds at most three recommendations. -/
theorem warning_only_high_ultra (c : Config) (hv : validConfig c) (m : DerivedMetrics)
    (hm : calculateObfuscationMetrics c = .ok m) :
    ((c.level = "low" ∨ c.level = "medium") → m.securityScore ≤ 90) ∧
    (warningRecommendation ∈ analyzeConfiguration c m →
      (c.level = "high" ∨ c.level = "ultra")) ∧
    ¬ (warningRecommendation ∈ analyzeConfiguration c m ∧
      successRecommendation ∈ analyzeConfiguration c m) ∧
    ¬ (warningRecommendation ∈ analyzeConfiguration c m ∧
      errorRecommendation ∈ analyzeConfiguration c m) ∧
    (analyzeConfiguration c m).length ≤ 3 := by
  obtain ⟨_, f2, _⟩ := calculateObfuscationMetrics_fields c m hm
  obtain ⟨mw, _, ms, me⟩ := mem_analyzeConfiguration c m
  have hlow : (c.level = "low" ∨ c.level = "medium") → m.securityScore ≤ 90 := by
    intro hl
    rw [f2]
    exact securityScore_le_ninety c _ (mathMin_le_right _ _) hl
  have hlevel : warningRecommendation ∈ analyzeConfiguration c m →
      (c.level = "high" ∨ c.level = "ultra") := by
    intro hw
    have hs := (mw.mp hw).1
    rcases hv.1 with e | e | e | e
    · exact absurd (hlow (Or.inl e)) (by linarith)
    · exact absurd (hlow (Or.inr e)) (by linarith)
    · exact Or.inl e
    · exact Or.inr e
  refine ⟨hlow, hlevel, ?_, ?_, ?_⟩
  · rintro ⟨hw, hs⟩
    have h1 := (ms.mp hs).1
    rcases hlevel hw with e | e <;> rw [e] at h1 <;> exact absurd h1 (by decide)
  · rintro ⟨hw, he⟩
    have h1 := (mw.mp hw).1
    have h2 := me.mp he
    linarith
  · rw [length_analyzeConfiguration]
    by_cases h1 : m.securityScore > 90 ∧ m.performanceImpact.time.value > 20
    · have h4 : ¬ m.securityScore < 60 := by linarith [h1.1]
      rw [if_pos h1, if_neg h4]
      split_ifs <;> norm_num
    · rw [if_neg h1]
      split_ifs <;> norm_num

/-- C15 at high, five cycles, 15 percent, both features, where the security score is 100 and
the time percentage 51.8: the warning is the whole result. -/
theorem warning_only_high_ultra_witness :
    validConfig ⟨"high", 5, 15, true, true⟩ ∧
    calculateObfuscationMetrics ⟨"high", 5, 15, true, true⟩ =
      .ok ⟨8800, 180, 50, 52, 100, 100, ⟨⟨724⟩, ⟨518⟩, ⟨584⟩⟩, ⟨none, some 4⟩⟩ ∧
    analyzeConfiguration ⟨"high", 5, 15, true, true⟩
      ⟨8800, 180, 50, 52, 100, 100, ⟨⟨724⟩, ⟨518⟩, ⟨584⟩⟩, ⟨none, some 4⟩⟩ =
      [warningRecommendation] ∧
    (warningRecommendation ∈ analyzeConfiguration ⟨"high", 5, 15, true, true⟩
        ⟨8800, 180, 50, 52, 100, 100, ⟨⟨724⟩, ⟨518⟩, ⟨584⟩⟩, ⟨none, some 4⟩⟩ →
      ((⟨"high", 5, 15, true, true⟩ : Config).level = "high" ∨
        (⟨"high", 5, 15, true, true⟩ : Config).level = "ultra")) :=
  ⟨by decide, by decide!, by decide!,
    (warning_only_high_ultra ⟨"high", 5, 15, true, true⟩ (by decide)
      ⟨8800, 180, 50, 52, 100, 100, ⟨⟨724⟩, ⟨518⟩, ⟨584⟩⟩, ⟨none, some 4⟩⟩ (by decide!)).2.1⟩

/-! ## Finite results over the full range -/

theorem overflowBound_eq : overflowBound = 2 ^ 1024 := by
  unfold overflowBound; norm_num

theorem rnd_le_two_mul (x : ℚ) (hx : 0 ≤ x) : rnd x ≤ 2 * x := by
  have h := (rnd_rel x hx).2
  have hu : unitRoundoff ≤ 1 := le_of_lt unitRoundoff_lt_one
  nlinarith

/-- A non-negative real below `2^1023` rounds to a finite Number. -/
theorem ofRat_of_nonneg (x : ℚ) (h0 : 0 ≤ x) (h : 2 * x < overflowBound) :
    Number.ofRat x = .fin (rnd x) := by
  have h1 := rnd_le_two_mul x h0
  have h2 := rnd_nonneg x h0
  have hb : 0 < overflowBound := by rw [overflowBound_eq]; positivity
  unfold Number.ofRat
  rw [if_neg (by linarith), if_neg (by linarith)]

theorem isFin_mono (x : Number) (v A B : ℚ) (h : Number.IsFin x v A) (hAB : A ≤ B) :
    Number.IsFin x v B :=
  ⟨h.1, h.2.1, le_trans h.2.2 hAB⟩

theorem isFin_const (q : ℚ) (h : 0 ≤ q) : Number.IsFin (.fin q) q q :=
  ⟨rfl, h, le_refl q⟩

theorem isFin_lit (q : ℚ) (h0 : 0 ≤ q) (h : 2 * q < overflowBound) :
    Number.IsFin (Number.lit q) (lit q) (2 * q) :=
  ⟨ofRat_of_nonneg q h0 h, rnd_nonneg q h0, rnd_le_two_mul q h0⟩

theorem isFin_add (x y : Number) (a b A B : ℚ) (hx : Number.IsFin x a A)
    (hy : Number.IsFin y b B) (h : 2 * (A + B) < overflowBound) :
    Number.IsFin (Number.add x y) (fadd a b) (2 * (A + B)) := by
  obtain ⟨rfl, a0, aA⟩ := hx
  obtain ⟨rfl, b0, bB⟩ := hy
  have h0 : 0 ≤ a + b := by linarith
  refine ⟨ofRat_of_nonneg _ h0 (by linarith), rnd_nonneg _ h0, ?_⟩
  exact le_trans (rnd_le_two_mul _ h0) (by linarith)

theorem isFin_mul (x y : Number) (a b A B : ℚ) (hx : Number.IsFin x a A)
    (hy : Number.IsFin y b B) (h : 2 * (A * B) < overflowBound) :
    Number.IsFin (Number.mul x y) (fmul a b) (2 * (A * B)) := by
  obtain ⟨rfl, a0, aA⟩ := hx
  obtain ⟨rfl, b0, bB⟩ := hy
  have h0 : 0 ≤ a * b := mul_nonneg a0 b0
  have h1 : a * b ≤ A * B := mul_le_mul aA bB b0 (le_trans a0 aA)
  refine ⟨ofRat_of_nonneg _ h0 (by linarith), rnd_nonneg _ h0, ?_⟩
  exact le_trans (rnd_le_two_mul _ h0) (by linarith)

theorem isFin_div (x : Number) (a A d : ℚ) (hx : Number.IsFin x a A) (hd : 0 < d)
    (h : 2 * (A / d) < overflowBound) :
    Number.IsFin (Number.div x (.fin d)) (fdiv a d) (2 * (A / d)) := by
  obtain ⟨rfl, a0, aA⟩ := hx
  have h0 : 0 ≤ a / d := div_nonneg a0 hd.le
  have h1 : a / d ≤ A / d := div_le_div_of_nonneg_right aA hd.le
  refine ⟨?_, rnd_nonneg _ h0, le_trans (rnd_le_two_mul _ h0) (by linarith)⟩
  unfold Number.div
  simp only [if_neg hd.ne']
  exact ofRat_of_nonneg _ h0 (by linarith)

theorem isFin_sub_one (x : Number) (a A : ℚ) (hx : Number.IsFin x a A) (h1 : 1 ≤ a)
    (h : 2 * A < overflowBound) :
    Number.IsFin (Number.sub x (.fin 1)) (fsub a 1) (2 * A) := by
  obtain ⟨rfl, a0, aA⟩ := hx
  have h0 : 0 ≤ a - 1 := by linarith
  refine ⟨ofRat_of_nonneg _ h0 (by linarith), rnd_nonneg _ h0, ?_⟩
  exact le_trans (rnd_le_two_mul _ h0) (by linarith)

theorem isFin_round (x : Number) (a A : ℚ) (hx : Number.IsFin x a A) :
    Number.round x = .fin (mathRound a) := by
  obtain ⟨rfl, _, _⟩ := hx
  rfl

theorem isFin_ofInt (n : ℤ) (h0 : 0 ≤ n) (B : ℚ) (hB : (n : ℚ) ≤ B)
    (h : 2 * B < overflowBound) : Number.IsFin (Number.ofInt n) (ofInt n) (2 * B) := by
  have hq : (0 : ℚ) ≤ n := by exact_mod_cast h0
  refine ⟨ofRat_of_nonneg _ hq (by linarith), rnd_nonneg _ hq, ?_⟩
  exact le_trans (rnd_le_two_mul _ hq) (by linarith)

/-- Up to `10^300` cycles a cycle multiplier `1 + (cycles - 1) * k` is finite. -/
theorem cycleMultiplier_isFin (n : ℤ) (h1 : 1 ≤ n) (h2 : n ≤ 10 ^ 300) (k : ℚ) (hk0 : 0 ≤ k)
    (hk1 : k ≤ 1) :
    Number.IsFin
      (Number.add (.fin 1)
        (Number.mul (Number.sub (Number.ofInt n) (.fin 1)) (Number.lit k)))
      (fadd 1 (fmul (fsub (ofInt n) 1) (lit k))) (4 * 10 ^ 301) := by
  have hb : (0 : ℚ) < overflowBound := by rw [overflowBound_eq]; positivity
  have hn : (n : ℚ) ≤ 10 ^ 300 := by exact_mod_cast h2
  have a1 := isFin_ofInt n (by omega) (10 ^ 300) hn (by rw [overflowBound_eq]; norm_num)
  have a2 := isFin_sub_one _ _ _ a1 (one_le_ofInt n h1) (by rw [overflowBound_eq]; norm_num)
  have a3 := isFin_mono _ _ _ 2 (isFin_lit k hk0 (by rw [overflowBound_eq]; linarith [show (4 : ℚ) < 2 ^ 1024 by norm_num]))
    (by linarith)
  have a4 := isFin_mul _ _ _ _ _ _ a2 a3 (by rw [overflowBound_eq]; norm_num)
  have a5 := isFin_add _ _ _ _ _ _ (isFin_const 1 (by norm_num)) a4
    (by rw [overflowBound_eq]; norm_num)
  exact isFin_mono _ _ _ _ a5 (by norm_num)

/-! ## The derived counts over the full range -/

/-- At a level of the tables the two forms of `getBaseMetrics` hold the same row. -/
theorem getBaseMetrics_fin (level : String) (h : validLevel level) :
    (Binary64.getBaseMetrics level).baseBogus = .fin (getBaseMetrics level).baseBogus ∧
    (Binary64.getBaseMetrics level).baseStrings = .fin (getBaseMetrics level).baseStrings ∧
    (Binary64.getBaseMetrics level).baseFakes = .fin (getBaseMetrics level).baseFakes ∧
    (Binary64.baseFunctions level).getD (.fin 8) = .fin ((baseFunctions level).getD 8) := by
  unfold Binary64.getBaseMetrics Binary64.metrics Binary64.baseFunctions getBaseMetrics metrics
    baseFunctions metricsMedium
  rcases h with e | e | e | e <;> rw [e] <;> simp

/-- Every base constant of the tables lies between 0 and 8000. -/
theorem base_bounds (level : String) :
    (0 ≤ (getBaseMetrics level).baseBogus ∧ (getBaseMetrics level).baseBogus ≤ 8000) ∧
    (0 ≤ (getBaseMetrics level).baseStrings ∧ (getBaseMetrics level).baseStrings ≤ 8000) ∧
    (0 ≤ (getBaseMetrics level).baseFakes ∧ (getBaseMetrics level).baseFakes ≤ 8000) ∧
    (0 ≤ (baseFunctions level).getD 8 ∧ (baseFunctions level).getD 8 ≤ 8000) := by
  refine ⟨?_, ?_, ?_, ?_⟩
  · rcases getBaseMetrics_cases level with h | h | h | h <;> rw [h] <;> norm_num
  · rcases getBaseMetrics_cases level with h | h | h | h <;> rw [h] <;> norm_num
  · rcases getBaseMetrics_cases level with h | h | h | h <;> rw [h] <;> norm_num
  · rcases baseFunctions_getD_cases level with h | h | h | h <;> rw [h] <;> norm_num

/-- A base constant times a cycle multiplier, rounded by `Math.round`, is finite up to
`10^300` cycles. -/
theorem scaled_count_fin (base : ℚ) (hb0 : 0 ≤ base) (hb1 : base ≤ 8000) (n : ℤ)
    (h1 : 1 ≤ n) (h2 : n ≤ 10 ^ 300) (k : ℚ) (hk0 : 0 ≤ k) (hk1 : k ≤ 1) :
    Number.round (Number.mul (.fin base)
      (Number.add (.fin 1)
        (Number.mul (Number.sub (Number.ofInt n) (.fin 1)) (Number.lit k)))) =
    .fin (mathRound (fmul base (fadd 1 (fmul (fsub (ofInt n) 1) (lit k))))) := by
  have a1 := isFin_mono _ _ _ 8000 (isFin_const base hb0) hb1
  have a2 := cycleMultiplier_isFin n h1 h2 k hk0 hk1
  have a3 := isFin_mul _ _ _ _ _ _ a1 a2 (by rw [overflowBound_eq]; norm_num)
  exact isFin_round _ _ _ a3

/-- For a valid configuration with at most `10^300` cycles, `calculateBogusInstructions`
over the full range returns the finite number computed above. -/
theorem calculateBogusInstructions_eq_fin (c : Config) (hv : validConfig c)
    (hc : c.cycles ≤ 10 ^ 300) :
    Binary64.calculateBogusInstructions c = .fin (calculateBogusInstructions c) := by
  obtain ⟨hl, hc1, hb0, hb1⟩ := hv
  obtain ⟨e1, _, _, _⟩ := getBaseMetrics_fin c.level hl
  obtain ⟨⟨g0, g1⟩, _, _, _⟩ := base_bounds c.level
  have hbq : ((c.bogusPercentage : ℤ) : ℚ) ≤ 100 := by exact_mod_cast hb1
  have a1 := isFin_mono _ _ _ 8000 (isFin_const _ g0) g1
  have a2 := isFin_ofInt c.bogusPercentage hb0 100 hbq (by rw [overflowBound_eq]; norm_num)
  have a3 := isFin_div _ _ _ 15 a2 (by norm_num) (by rw [overflowBound_eq]; norm_num)
  have a4 := isFin_mul _ _ _ _ _ _ a1 a3 (by rw [overflowBound_eq]; norm_num)
  have a5 := cycleMultiplier_isFin c.cycles hc1 hc (3 / 10) (by norm_num) (by norm_num)
  have a6 := isFin_mul _ _ _ _ _ _ a4 a5 (by rw [overflowBound_eq]; norm_num)
  unfold Binary64.calculateBogusInstructions calculateBogusInstructions
  simp only [e1]
  exact isFin_round _ _ _ a6

/-- C7, amended: for every valid configuration with at most `10^300` cycles, each of
`calculateBogusInstructions`, `calculateEncryptedStrings`, `calculateFakeLooks` and
`calculateControlFlowFunctions` returns a non-negative integer. -/
theorem counts_nonneg_integers_in_range (c : Config) (hv : validConfig c)
    (hc : c.cycles ≤ 10 ^ 300) :
    (∃ n : ℕ, Binary64.calculateBogusInstructions c = .fin n) ∧
    (∃ n : ℕ, Binary64.calculateEncryptedStrings c = .fin n) ∧
    (∃ n : ℕ, Binary64.calculateFakeLooks c = .fin n) ∧
    (∃ n : ℕ, Binary64.calculateControlFlowFunctions c = .fin n) := by
  obtain ⟨⟨n1, h1⟩, ⟨n2, h2⟩, ⟨n3, h3⟩, ⟨n4, h4⟩⟩ := counts_nonneg_integers c hv
  obtain ⟨_, e2, e3, e4⟩ := getBaseMetrics_fin c.level hv.1
  obtain ⟨_, ⟨s0, s1⟩, ⟨f0, f1⟩, ⟨k0, k1⟩⟩ := base_bounds c.level
  refine ⟨⟨n1, ?_⟩, ⟨n2, ?_⟩, ⟨n3, ?_⟩, ⟨n4, ?_⟩⟩
  · rw [calculateBogusInstructions_eq_fin c hv hc, h1]
  · rw [← h2]
    unfold Binary64.calculateEncryptedStrings calculateEncryptedStrings
    split_ifs
    · rfl
    · simp only [e2]
      exact scaled_count_fin _ s0 s1 _ hv.2.1 hc _ (by norm_num) (by norm_num)
  · rw [← h3]
    unfold Binary64.calculateFakeLooks calculateFakeLooks
    split_ifs
    · rfl
    · simp only [e3]
      exact scaled_count_fin _ f0 f1 _ hv.2.1 hc _ (by norm_num) (by norm_num)
  · rw [← h4]
    unfold Binary64.calculateControlFlowFunctions calculateControlFlowFunctions
    simp only [e4]
    exact scaled_count_fin _ k0 k1 _ hv.2.1 hc _ (by norm_num) (by norm_num)

/-- C7, amended, at low, three cycles, 20 percent, string encryption only: the counts are
1067, 28, 0 and 5. -/
theorem counts_nonneg_integers_in_range_witness :
    validConfig ⟨"low", 3, 20, true, false⟩ ∧ (3 : ℤ) ≤ 10 ^ 300 ∧
    Binary64.calculateBogusInstructions ⟨"low", 3, 20, true, false⟩ = .fin 1067 ∧
    Binary64.calculateEncryptedStrings ⟨"low", 3, 20, true, false⟩ = .fin 28 ∧
    Binary64.calculateFakeLooks ⟨"low", 3, 20, true, false⟩ = .fin 0 ∧
    Binary64.calculateControlFlowFunctions ⟨"low", 3, 20, true, false⟩ = .fin 5 ∧
    ((∃ n : ℕ, Binary64.calculateBogusInstructions ⟨"low", 3, 20, true, false⟩ = .fin n) ∧
    (∃ n : ℕ, Binary64.calculateEncryptedStrings ⟨"low", 3, 20, true, false⟩ = .fin n) ∧
    (∃ n : ℕ, Binary64.calculateFakeLooks ⟨"low", 3, 20, true, false⟩ = .fin n) ∧
    (∃ n : ℕ, Binary64.calculateControlFlowFunctions ⟨"low", 3, 20, true, false⟩ = .fin n)) :=
  ⟨by decide, by norm_num, by decide!, by decide!, by decide!, by decide!,
    counts_nonneg_integers_in_range ⟨"low", 3, 20, true, false⟩ (by decide) (by norm_num)⟩

/-- C7 as stated fails: at ultra, `2^1023` cycles and 100 percent, a valid configuration, the
product of `calculateBogusInstructions` overflows and the method returns `Infinity`, and
so does `calculateControlFlowFunctions`. -/
theorem counts_overflow :
    validConfig ⟨"ultra", 2 ^ 1023, 100, true, true⟩ ∧
    Binary64.calculateBogusInstructions ⟨"ultra", 2 ^ 1023, 100, true, true⟩ = .posInf ∧
    Binary64.calculateControlFlowFunctions ⟨"ultra", 2 ^ 1023, 100, true, true⟩ = .posInf ∧
    ¬ ∃ n : ℕ, Binary64.calculateBogusInstructions ⟨"ultra", 2 ^ 1023, 100, true, true⟩ =
      .fin n := by
  have h : Binary64.calculateBogusInstructions ⟨"ultra", 2 ^ 1023, 100, true, true⟩ =
      .posInf := by decide!
  refine ⟨by decide!, h, by decide!, ?_⟩
  rintro ⟨n, hn⟩
  rw [h] at hn
  exact Number.noConfusion hn

/-! ## The performance percentages over the full range -/

/-- A finite Number of at least `2^53` is an integer. -/
theorem rnd_isInt_of_large (y : ℚ) (h : (2 : ℚ) ^ (53 : ℕ) ≤ rnd y) : ∃ n : ℤ, rnd y = n := by
  have hy : 0 < y := by
    by_contra hn
    push_neg at hn
    have := rnd_mono y 0 hn
    rw [rnd_zero] at this
    have : (0 : ℚ) < 2 ^ (53 : ℕ) := by positivity
    linarith
  have hb := (rnd_pos_bounds y hy).2
  have hlt : (2 : ℚ) ^ (53 : ℤ) ≤ (2 : ℚ) ^ (binade y + 1) := by
    have e : (2 : ℚ) ^ (53 : ℤ) = (2 : ℚ) ^ (53 : ℕ) := by norm_num
    rw [e]
    exact le_trans h hb
  have he := (zpow_le_zpow_iff_right₀ (by norm_num : (1 : ℚ) < 2)).mp hlt
  have hk : 0 ≤ binade y - 52 := by omega
  refine ⟨roundHalfEven (y / pow2 (binade y - 52)) * 2 ^ (binade y - 52).toNat, ?_⟩
  unfold rnd
  rw [if_neg hy.ne']
  have hp : pow2 (binade y - 52) = ((2 ^ (binade y - 52).toNat : ℕ) : ℚ) := by
    unfold pow2
    rw [if_pos hk]
  rw [hp]
  push_cast
  rfl

/-- The string `toFixed(1)` makes of a finite non-negative Number spells a non-negative
value, ten times which is an integer. -/
theorem toFixed1_fin_nonneg (y : ℚ) (h0 : 0 ≤ rnd y) :
    ∃ v : ℚ, (Number.toFixed1 (.fin (rnd y))).value? = some v ∧ 0 ≤ v ∧
      ∃ n : ℤ, 10 * v = n := by
  have e : Number.toFixed1 (.fin (rnd y)) =
      if (10 : ℚ) ^ 21 ≤ |rnd y| then .large (rnd y) else .decimal (toFixed1 (rnd y)) := rfl
  rw [e]
  split_ifs with hl
  · refine ⟨rnd y, rfl, h0, ?_⟩
    rw [abs_of_nonneg h0] at hl
    obtain ⟨n, hn⟩ := rnd_isInt_of_large y (le_trans (by norm_num) hl)
    exact ⟨10 * n, by rw [hn]; push_cast; ring⟩
  · obtain ⟨n, hn⟩ := toFixed1_nonneg (rnd y) h0
    refine ⟨(toFixed1 (rnd y)).value, rfl, ?_, ⟨n, by exact_mod_cast hn⟩⟩
    have : (0 : ℚ) ≤ n := Nat.cast_nonneg n
    linarith

/-- A percentage `((factor - 1) * 100).toFixed(1)` of a finite factor of at least 1 spells a
non-negative value with one decimal place. -/
theorem percent_fin (x : Number) (a A : ℚ) (hx : Number.IsFin x a A) (h1 : 1 ≤ a)
    (h : 2 * (2 * A * 100) < overflowBound) :
    ∃ v : ℚ, (Number.toFixed1 (Number.mul (Number.sub x (.fin 1)) (.fin 100))).value? =
        some v ∧ 0 ≤ v ∧ ∃ n : ℤ, 10 * v = n := by
  have hA : 0 ≤ A := le_trans hx.2.1 hx.2.2
  have a1 := isFin_sub_one x a A hx h1 (by linarith)
  have a2 := isFin_mul _ _ _ _ _ _ a1 (isFin_const 100 (by norm_num)) h
  rw [a2.1]
  exact toFixed1_fin_nonneg _ a2.2.1

/-- At a level of the tables the two forms of `performanceBaseline` hold the same row, of
factors between 1 and 3. -/
theorem performanceBaseline_fin (level : String) (h : validLevel level) :
    ∃ s t m : ℚ, Binary64.performanceBaseline level = some ⟨.fin s, .fin t, .fin m⟩ ∧
      (1 ≤ s ∧ s ≤ 3) ∧ (1 ≤ t ∧ t ≤ 3) ∧ (1 ≤ m ∧ m ≤ 3) := by
  have hb : (6 : ℚ) < overflowBound := by rw [overflowBound_eq]; norm_num
  have key : ∀ q : ℚ, 1 ≤ q → q ≤ 3 / 2 →
      Number.lit q = .fin (lit q) ∧ 1 ≤ lit q ∧ lit q ≤ 3 := by
    intro q h1 h2
    have a := isFin_lit q (by linarith) (by linarith)
    refine ⟨a.1, ?_, by linarith [a.2.2]⟩
    have := le_rnd_of_intCast_le 1 q (by norm_num) (by push_cast; exact h1)
    simpa [lit] using this
  unfold Binary64.performanceBaseline
  rcases h with e | e | e | e <;> rw [e] <;> simp
  · obtain ⟨e1, l1, u1⟩ := key (105 / 100) (by norm_num) (by norm_num)
    obtain ⟨e2, l2, u2⟩ := key (103 / 100) (by norm_num) (by norm_num)
    obtain ⟨e3, l3, u3⟩ := key (104 / 100) (by norm_num) (by norm_num)
    exact ⟨_, _, _, ⟨e1, e2, e3⟩, ⟨l1, u1⟩, ⟨l2, u2⟩, ⟨l3, u3⟩⟩
  · obtain ⟨e1, l1, u1⟩ := key (115 / 100) (by norm_num) (by norm_num)
    obtain ⟨e2, l2, u2⟩ := key (108 / 100) (by norm_num) (by norm_num)
    obtain ⟨e3, l3, u3⟩ := key (112 / 100) (by norm_num) (by norm_num)
    exact ⟨_, _, _, ⟨e1, e2, e3⟩, ⟨l1, u1⟩, ⟨l2, u2⟩, ⟨l3, u3⟩⟩
  · obtain ⟨e1, l1, u1⟩ := key (125 / 100) (by norm_num) (by norm_num)
    obtain ⟨e2, l2, u2⟩ := key (115 / 100) (by norm_num) (by norm_num)
    obtain ⟨e3, l3, u3⟩ := key (120 / 100) (by norm_num) (by norm_num)
    exact ⟨_, _, _, ⟨e1, e2, e3⟩, ⟨l1, u1⟩, ⟨l2, u2⟩, ⟨l3, u3⟩⟩
  · obtain ⟨e1, l1, u1⟩ := key (140 / 100) (by norm_num) (by norm_num)
    obtain ⟨e2, l2, u2⟩ := key (125 / 100) (by norm_num) (by norm_num)
    obtain ⟨e3, l3, u3⟩ := key (135 / 100) (by norm_num) (by norm_num)
    exact ⟨_, _, _, ⟨e1, e2, e3⟩, ⟨l1, u1⟩, ⟨l2, u2⟩, ⟨l3, u3⟩⟩

/-- C14, amended: for every valid configuration with at most `10^300` cycles,
`calculatePerformanceImpact` returns three strings, each spelling a non-negative value with
one decimal place: ten times the value is an integer. -/
theorem performanceImpact_in_range (c : Config) (hv : validConfig c)
    (hc : c.cycles ≤ 10 ^ 300) :
    ∃ p, Binary64.calculatePerformanceImpact c = .ok p ∧
      (∃ v : ℚ, p.size.value? = some v ∧ 0 ≤ v ∧ ∃ n : ℤ, 10 * v = n) ∧
      (∃ v : ℚ, p.time.value? = some v ∧ 0 ≤ v ∧ ∃ n : ℤ, 10 * v = n) ∧
      (∃ v : ℚ, p.memory.value? = some v ∧ 0 ≤ v ∧ ∃ n : ℤ, 10 * v = n) := by
  obtain ⟨hl, hc1, hb0, hb1⟩ := hv
  obtain ⟨s, t, m, hbase, ⟨s1, s3⟩, ⟨t1, t3⟩, ⟨m1, m3⟩⟩ := performanceBaseline_fin c.level hl
  have hbq : ((c.bogusPercentage : ℤ) : ℚ) ≤ 100 := by exact_mod_cast hb1
  have hcm := cycleMultiplier_isFin c.cycles hc1 hc (8 / 100) (by norm_num) (by norm_num)
  have hcm1 : 1 ≤ fadd 1 (fmul (fsub (ofInt c.cycles) 1) (lit (8 / 100))) :=
    one_le_fadd_one _ (fmul_nonneg _ _ (cyclesMinusOne_nonneg _ hc1)
      (lit_nonneg _ (by norm_num)))
  -- the bogus multiplier is finite and at least 1
  have b1 := isFin_ofInt c.bogusPercentage hb0 100 hbq (by rw [overflowBound_eq]; norm_num)
  have b2 := isFin_div _ _ _ 100 b1 (by norm_num) (by rw [overflowBound_eq]; norm_num)
  have b3 := isFin_mul _ _ _ _ _ _ b2
    (isFin_lit (3 / 10) (by norm_num) (by rw [overflowBound_eq]; norm_num))
    (by rw [overflowBound_eq]; norm_num)
  have b4 := isFin_add _ _ _ _ _ _ (isFin_const 1 (by norm_num)) b3
    (by rw [overflowBound_eq]; norm_num)
  have hbm1 : 1 ≤ fadd 1 (fmul (fdiv (ofInt c.bogusPercentage) 100) (lit (3 / 10))) :=
    one_le_fadd_one _ b3.2.1
  -- the three factors
  have fs := isFin_mul _ _ _ _ _ _
    (isFin_mul _ _ _ _ _ _ (isFin_mono _ _ _ 3 (isFin_const s (by linarith)) s3) hcm
      (by rw [overflowBound_eq]; norm_num)) b4 (by rw [overflowBound_eq]; norm_num)
  have ft := isFin_mul _ _ _ _ _ _ (isFin_mono _ _ _ 3 (isFin_const t (by linarith)) t3) hcm
    (by rw [overflowBound_eq]; norm_num)
  have fm := isFin_mul _ _ _ _ _ _ (isFin_mono _ _ _ 3 (isFin_const m (by linarith)) m3) hcm
    (by rw [overflowBound_eq]; norm_num)
  have ps := percent_fin _ _ _ fs (one_le_fmul _ _ (one_le_fmul _ _ s1 hcm1) hbm1)
    (by rw [overflowBound_eq]; norm_num)
  have pt := percent_fin _ _ _ ft (one_le_fmul _ _ t1 hcm1)
    (by rw [overflowBound_eq]; norm_num)
  have pm := percent_fin _ _ _ fm (one_le_fmul _ _ m1 hcm1)
    (by rw [overflowBound_eq]; norm_num)
  refine ⟨_, by unfold Binary64.calculatePerformanceImpact; rw [hbase], ps, pt, pm⟩

/-- C14, amended, at high, one cycle, 15 percent, both features, where the strings are
30.6, 15.0 and 20.0, and at low with `10^21` cycles, where the percentages are integers
of `10^21` or more, which `toFixed` prints as `String` does. -/
theorem performanceImpact_in_range_witness :
    validConfig ⟨"high", 1, 15, true, true⟩ ∧ (1 : ℤ) ≤ 10 ^ 300 ∧
    Binary64.calculatePerformanceImpact ⟨"high", 1, 15, true, true⟩ =
      .ok ⟨.decimal ⟨306⟩, .decimal ⟨150⟩, .decimal ⟨200⟩⟩ ∧
    Binary64.calculatePerformanceImpact ⟨"low", 10 ^ 21, 15, true, true⟩ =
      .ok ⟨.large 8777999999999999475712, .large 8240000000000000000000,
        .large 8320000000000000000000⟩ ∧
    ∃ p, Binary64.calculatePerformanceImpact ⟨"high", 1, 15, true, true⟩ = .ok p ∧
      (∃ v : ℚ, p.size.value? = some v ∧ 0 ≤ v ∧ ∃ n : ℤ, 10 * v = n) ∧
      (∃ v : ℚ, p.time.value? = some v ∧ 0 ≤ v ∧ ∃ n : ℤ, 10 * v = n) ∧
      (∃ v : ℚ, p.memory.value? = some v ∧ 0 ≤ v ∧ ∃ n : ℤ, 10 * v = n) :=
  ⟨by decide, by norm_num, by decide!, by decide!,
    performanceImpact_in_range ⟨"high", 1, 15, true, true⟩ (by decide) (by norm_num)⟩

/-- C14 as stated fails: at low, `2^1023` cycles and 15 percent, a valid configuration, every
percentage overflows and `toFixed(1)` returns the string `Infinity`, which spells no value
with one decimal place. -/
theorem performanceImpact_overflow :
    validConfig ⟨"low", 2 ^ 1023, 15, true, true⟩ ∧
    Binary64.calculatePerformanceImpact ⟨"low", 2 ^ 1023, 15, true, true⟩ =
      .ok ⟨.infinity, .infinity, .infinity⟩ ∧
    NumberString.infinity.value? = none := by
  refine ⟨by decide!, by decide!, rfl⟩

end ParameterCalculator
